import Mathlib

/-!
A verification development for the OSM Speed Audit Tool.

The repository's core consists of three subsystems, shallowly embedded here:

* the path assembler (`fetchStreetData` in the OSM service): chain building over
  road-way fragments, stable selection of the longest chain, flattening into a
  coordinate path, direction normalization and speed-tag carry-forward;
* the arc-length sampler (`getSamplePoints`);
* the bounded-concurrency analysis pipeline (`handleAnalyzeClick` and its
  `worker` closure in the application component), including speed validation and
  discrepancy classification.

Numbers that JavaScript stores as IEEE doubles are modelled as rationals (ℚ);
node and way identifiers as naturals.  The transcendental geometry helpers
(haversine distance, bearing) cannot be evaluated in ℚ and are abstracted as
function parameters; no verified property below depends on their values.
-/

namespace OSMAudit

/-- A road-way fragment as parsed from the Overpass response: its id, ordered
node ids, optional `maxspeed` tag and raw `oneway` tag (the source defaults a
missing tag to the string "no"). -/
structure Way where
  id : ℕ
  nodes : List ℕ
  speed : Option String
  oneway : String
deriving DecidableEq, Repr

/-- The node store built from the Overpass response: node id to (lat, lon).
The JavaScript object keyed by numeric id is modelled as an association list;
`List.lookup` returns the first binding, matching object-key uniqueness. -/
abbrev NodeMap := List (ℕ × (ℚ × ℚ))

/-- A point of the assembled path or of the sample sequence (`OSMPoint` in
types.ts): coordinates plus the inherited speed tag and way id. -/
structure OSMPoint where
  lat : ℚ
  lon : ℚ
  speed : Option String
  wayId : Option ℕ
deriving DecidableEq, Repr

/-- Default point used when indexing with `List.getD`; source code never reads
out-of-range indices on the paths where it is used. -/
def dfltPoint : OSMPoint := ⟨0, 0, none, none⟩

/-! ### String helpers

The worker parses the recorded OSM speed with the regex `/(\d+)/` (first
maximal digit run) and tests units with `toLowerCase().includes` -/

/-- Lower-case the characters of a string (models `String.prototype.toLowerCase`
on the ASCII tags that occur in speed values). -/
def lowerChars (s : String) : List Char := s.data.map Char.toLower

/-- Whether the second list starts with the first (character-wise). -/
def listStartsWith : List Char → List Char → Bool
  | [], _ => true
  | _ :: _, [] => false
  | a :: as, b :: bs => a == b && listStartsWith as bs

/-- Whether `needle` occurs as a contiguous substring of `hay` (models
`String.prototype.includes`). -/
def containsSub (needle : List Char) : List Char → Bool
  | [] => listStartsWith needle []
  | c :: cs => listStartsWith needle (c :: cs) || containsSub needle cs

/-- Parse a digit run as a natural number (models `parseInt(run, 10)`). -/
def digitsToNat (cs : List Char) : ℕ :=
  cs.foldl (fun n c => 10 * n + (c.toNat - 48)) 0

/-- First maximal digit run of the character list, parsed; `none` when the
string has no digit (models `value.match(/(\d+)/)` followed by `parseInt`). -/
def firstNumericRun : List Char → Option ℕ
  | [] => none
  | c :: cs =>
    if c.isDigit then some (digitsToNat ((c :: cs).takeWhile Char.isDigit))
    else firstNumericRun cs

/-! ### Detection validation and discrepancy classification (worker lines 304-344) -/

/-- The parsed Gemini response (`GeminiAnalysisResult` in types.ts): detected
numeric speed-limit value (or null) and a confidence score. -/
structure GeminiAnalysisResult where
  speed_limit : Option ℚ
  confidence : ℚ
deriving DecidableEq, Repr

/-- Miles-per-hour to km/h conversion used by the worker (`* 1.60934`). -/
def mphToKmh (v : ℚ) : ℚ := v * (160934 / 100000)

/-- Lower plausibility bound for a detected speed (`minSpeed` in the worker). -/
def minPlausible (country : String) : ℚ := if country == "USA" then 5 else 10

/-- Upper plausibility bound (`maxSpeed` in the worker). -/
def maxPlausible (country : String) : ℚ := if country == "USA" then 90 else 150

/-- Validation of the raw detection (worker lines 304-315): discard the value
when confidence is below the threshold, then discard it when outside the
country-specific plausibility bounds (5-90 for the USA, 10-150 otherwise).
A null analysis result carries no value and no confidence. -/
def validateDetected (country : String) (threshold : ℚ)
    (res : Option GeminiAnalysisResult) : Option ℚ :=
  let detectedSpeed := res.bind (fun r => r.speed_limit)
  let conf := res.map (fun r => r.confidence)
  let afterConf : Option ℚ :=
    match detectedSpeed, conf with
    | some d, some c => if c < threshold then none else some d
    | d, _ => d
  match afterConf with
  | some d => if minPlausible country ≤ d ∧ d ≤ maxPlausible country then some d else none
  | none => none

/-- Discrepancy classification (worker lines 317-344): with both a recorded tag
and a validated detected speed, parse the tag's digit run, convert both values
to km/h (the tag is mph when it mentions "mph"; the detection is mph exactly
for the USA) and flag when they differ by more than 5; a tag with no digits
counts as a discrepancy; a detection with no recorded tag is a discrepancy;
otherwise no discrepancy. -/
def classifyDiscrepancy (country : String) (osmSpeed : Option String)
    (finalDetected : Option ℚ) : Bool :=
  match osmSpeed, finalDetected with
  | some os, some d =>
    match firstNumericRun os.data with
    | some v =>
      let osmKmh : ℚ :=
        if containsSub "mph".data (lowerChars os) then mphToKmh (v : ℚ) else (v : ℚ)
      let detKmh : ℚ := if country == "USA" then mphToKmh d else d
      decide (|osmKmh - detKmh| > 5)
    | none => true
  | none, some _ => true
  | _, none => false

/-- Discrepancy condition stated from the specification's words (claim C3):
the flag is set iff both values exist and, after parsing the numeric portion of
the recorded tag and converting both to a common unit system, the absolute
difference exceeds 5, or the recorded tag has no parseable numeric component
while a sign was detected; or a validated detection exists with no recorded
tag. -/
def claimDiscrepancy (country : String) (recorded : Option String)
    (detected : Option ℚ) : Prop :=
  (∃ r d, recorded = some r ∧ detected = some d ∧
    ((∃ v, firstNumericRun r.data = some v ∧
        |(if containsSub "mph".data (lowerChars r) then mphToKmh (v : ℚ) else (v : ℚ)) -
          (if country == "USA" then mphToKmh d else d)| > 5) ∨
      firstNumericRun r.data = none))
  ∨ (recorded = none ∧ ∃ d, detected = some d)

theorem classify_iff_claim (country : String) (recorded : Option String)
    (detected : Option ℚ) :
    classifyDiscrepancy country recorded detected = true ↔
      claimDiscrepancy country recorded detected := by
  cases recorded with
  | none =>
    cases detected with
    | none => simp [classifyDiscrepancy, claimDiscrepancy]
    | some d => simp [classifyDiscrepancy, claimDiscrepancy]
  | some r =>
    cases detected with
    | none => simp [classifyDiscrepancy, claimDiscrepancy]
    | some d =>
      simp only [classifyDiscrepancy, claimDiscrepancy]
      cases h : firstNumericRun r.data with
      | none =>
        simp [h]
      | some v =>
        simp [h]

/-! ### Path assembler (`fetchStreetData`, osm service lines 239-376)

The JavaScript code iterates an object keyed by numeric way id with `for..in`,
which enumerates integer-like keys in ascending numeric order; the `ways`
parameter below is that enumeration as a list.  `Array.prototype.sort` is
stable (ES2019), modelled by a stable insertion sort. -/

/-- The two endpoint slots of a way pushed into the endpoint index
(`[way.nodes[0], way.nodes[way.nodes.length - 1]]`, skipped for an empty node
list). -/
def endpointIds (w : Way) : List ℕ :=
  match w.nodes with
  | [] => []
  | n :: rest => [n, (n :: rest).getLast (List.cons_ne_nil n rest)]

/-- The way ids registered under node `nid` in the endpoint index
(`nodeToWayMap`), in insertion order: ways in enumeration order, first-endpoint
slot before last-endpoint slot. -/
def nodeWays (ways : List Way) (nid : ℕ) : List ℕ :=
  ways.flatMap (fun w =>
    (endpointIds w).flatMap (fun e => if e = nid then [w.id] else []))

/-- Lookup of a way by id (`ways[wayId]` on the id-keyed object). -/
def findWay (ways : List Way) (wid : ℕ) : Option Way :=
  ways.find? (fun w => w.id == wid)

/-- The unused ways connected to the current tip
(`nodeToWayMap.get(tip)?.filter(w => !usedWays.has(w))`, an empty list when the
tip is `undefined` or absent from the index). -/
def stepConnections (ways : List Way) (used : List ℕ) : Option ℕ → List ℕ
  | none => []
  | some t => (nodeWays ways t).filter (fun w => !used.contains w)

/-- Forward chain extension (osm service lines 261-275): repeatedly pick the
first unused way sharing the tip node, append its id and move the tip to the
way's far endpoint.  The tip is `none` when the JavaScript value would be
`undefined` (empty node list), in which case the lookup misses and the loop
stops.  Fuel bounds the loop; each iteration consumes an unused way, so
`ways.length` fuel is never exhausted. -/
def extendForward (ways : List Way) :
    ℕ → List ℕ → List ℕ → Option ℕ → List ℕ × List ℕ × Option ℕ
  | 0, used, chain, tip => (used, chain, tip)
  | fuel + 1, used, chain, tip =>
    match stepConnections ways used tip with
    | [] => (used, chain, tip)
    | nextWayId :: _ =>
      match findWay ways nextWayId with
      | none => (used, chain, tip)
      | some nextWay =>
        if nextWay.nodes.head? = tip then
          extendForward ways fuel (nextWayId :: used) (chain ++ [nextWayId])
            nextWay.nodes.getLast?
        else
          extendForward ways fuel (nextWayId :: used) (chain ++ [nextWayId])
            nextWay.nodes.head?

/-- Backward chain extension (osm service lines 277-292): like
`extendForward` but the found way id is prepended and the matched endpoint is
the way's last node. -/
def extendBackward (ways : List Way) :
    ℕ → List ℕ → List ℕ → Option ℕ → List ℕ × List ℕ × Option ℕ
  | 0, used, chain, tip => (used, chain, tip)
  | fuel + 1, used, chain, tip =>
    match stepConnections ways used tip with
    | [] => (used, chain, tip)
    | nextWayId :: _ =>
      match findWay ways nextWayId with
      | none => (used, chain, tip)
      | some nextWay =>
        if nextWay.nodes.getLast? = tip then
          extendBackward ways fuel (nextWayId :: used) (nextWayId :: chain)
            nextWay.nodes.head?
        else
          extendBackward ways fuel (nextWayId :: used) (nextWayId :: chain)
            nextWay.nodes.getLast?

/-- One iteration of the chain-building loop body for seed way `w` (osm
service lines 253-295): skip used seeds, otherwise grow a chain forward from
the seed's last node and backward from its first node. -/
def buildChainsStep (ways : List Way) (st : List (List ℕ) × List ℕ) (w : Way) :
    List (List ℕ) × List ℕ :=
  if st.2.contains w.id then st
  else
    let fwd := extendForward ways ways.length (w.id :: st.2) [w.id] w.nodes.getLast?
    let bwd := extendBackward ways ways.length fwd.1 fwd.2.1 w.nodes.head?
    (st.1 ++ [bwd.2.1], bwd.1)

/-- All chains produced by the greedy chain builder, in seed order. -/
def buildChains (ways : List Way) : List (List ℕ) :=
  (ways.foldl (buildChainsStep ways) ([], [])).1

/-- Stable insertion of a chain into a length-descending sorted list: the new
chain goes after every already-placed chain of length at least its own. -/
def insertChainDesc (c : List ℕ) : List (List ℕ) → List (List ℕ)
  | [] => [c]
  | d :: ds => if c.length < d.length then d :: insertChainDesc c ds else c :: d :: ds

/-- Stable sort of the chains by descending fragment count, modelling
`chains.sort((a, b) => b.length - a.length)` under ES2019 stability. -/
def sortChainsDesc : List (List ℕ) → List (List ℕ)
  | [] => []
  | c :: cs => insertChainDesc c (sortChainsDesc cs)

/-- Keep the earlier chain `c` unless the best later chain is strictly
longer. -/
def pickLonger (c : List ℕ) (o : Option (List ℕ)) : Option (List ℕ) :=
  match o with
  | none => some c
  | some d => if c.length < d.length then some d else some c

/-- The first chain of maximal length in construction order; a stable
descending sort puts exactly this chain first. -/
def firstArgmax : List (List ℕ) → Option (List ℕ)
  | [] => none
  | c :: cs => pickLonger c (firstArgmax cs)

/-- Points emitted for the listed node ids of a way (`buildPointsForWay`):
ids missing from the node store are silently dropped. -/
def buildPointsForWay (nm : NodeMap) (w : Way) (nodeIds : List ℕ) : List OSMPoint :=
  nodeIds.filterMap (fun nid =>
    (nm.lookup nid).map (fun c => ⟨c.1, c.2, w.speed, some w.id⟩))

/-- Flattening loop over the tail of the chain (osm service lines 316-332).
`none` models the TypeError the JavaScript would raise when a way id or the
`.lat` of an unresolved junction node is accessed; the first branch taken is
decided by coordinate equality with the path's last point, and the JavaScript
reads the end node's coordinates only when the start node did not match. -/
def flattenGo (ways : List Way) (nm : NodeMap) :
    List ℕ → List OSMPoint → Option (List OSMPoint)
  | [], acc => some acc
  | wid :: rest, acc =>
    match findWay ways wid with
    | none => none
    | some cw =>
      match acc.getLast? with
      | none => some acc
      | some lastP =>
        match cw.nodes.head?.bind (fun n => nm.lookup n) with
        | none => none
        | some sn =>
          if lastP.lat = sn.1 ∧ lastP.lon = sn.2 then
            flattenGo ways nm rest (acc ++ buildPointsForWay nm cw (cw.nodes.drop 1))
          else
            match cw.nodes.getLast?.bind (fun n => nm.lookup n) with
            | none => none
            | some en =>
              if lastP.lat = en.1 ∧ lastP.lon = en.2 then
                flattenGo ways nm rest
                  (acc ++ buildPointsForWay nm cw (cw.nodes.reverse.drop 1))
              else
                flattenGo ways nm rest (acc ++ buildPointsForWay nm cw cw.nodes)

/-- Flattening of the selected chain: the first way's nodes in full, then each
subsequent way oriented by matching its endpoints against the running tip,
with the shared endpoint skipped, or appended unmodified on a mismatch. -/
def flattenChain (ways : List Way) (nm : NodeMap) (chain : List ℕ) :
    Option (List OSMPoint) :=
  match chain with
  | [] => some []
  | firstId :: rest =>
    match findWay ways firstId with
    | none => none
    | some w0 => flattenGo ways nm rest (buildPointsForWay nm w0 w0.nodes)

/-- Whether a way's raw oneway tag counts as one-way
(`oneway === 'yes' || 'true' || '1'`). -/
def isOnewayFlag (s : String) : Bool := s == "yes" || s == "true" || s == "1"

/-- Number of chain fragments flagged one-way (osm service lines 336-339). -/
def onewayCount (ways : List Way) (chain : List ℕ) : ℕ :=
  (chain.filter (fun wid =>
    match findWay ways wid with
    | some w => isOnewayFlag w.oneway
    | none => false)).length

/-- Direction normalization (osm service lines 335-364): when more than half
of the chain's fragments are one-way the assembled order is preserved;
otherwise the path is reversed when its start is after its end along the
dominant axis (north-south when the latitude span exceeds the longitude span,
else west-east). -/
def normalizeDirection (ways : List Way) (chain : List ℕ) (fp : List OSMPoint) :
    List OSMPoint :=
  if fp.isEmpty then fp
  else if 0 < chain.length ∧
      ((onewayCount ways chain : ℚ) / (chain.length : ℚ) > 1 / 2) then fp
  else
    match fp.head?, fp.getLast? with
    | some fpt, some lpt =>
      let isNS := |lpt.lat - fpt.lat| > |lpt.lon - fpt.lon|
      let needsRev := if isNS then fpt.lat < lpt.lat else fpt.lon > lpt.lon
      if needsRev then fp.reverse else fp
    | _, _ => fp

/-- Speed-tag carry-forward over the normalized path (osm service lines
368-373): the loop reads the already-updated previous element, so the carried
value propagates through runs of missing tags. -/
def carryForwardGo : Option OSMPoint → List OSMPoint → List OSMPoint
  | _, [] => []
  | none, p :: rest => p :: carryForwardGo (some p) rest
  | some prev, p :: rest =>
    let p' := if p.speed = none then
        { p with speed := prev.speed, wayId := prev.wayId } else p
    p' :: carryForwardGo (some p') rest

/-- Carry-forward entry point: the first point is never modified. -/
def carryForward (pts : List OSMPoint) : List OSMPoint := carryForwardGo none pts

/-- The full assembler (pure core of `fetchStreetData` after response
parsing): early empty result when the node or way sets are empty, chain
building, stable longest-chain selection, flattening, direction
normalization and carry-forward.  `none` models a thrown TypeError. -/
def assemblePath (ways : List Way) (nm : NodeMap) : Option (List OSMPoint) :=
  if nm.isEmpty || ways.isEmpty then some []
  else
    match (sortChainsDesc (buildChains ways)).head? with
    | none => some []
    | some longest =>
      (flattenChain ways nm longest).map (fun fp =>
        carryForward (normalizeDirection ways longest fp))

/-! ### Arc-length sampler (`getSamplePoints`, osm service lines 402-474)

The source measures segments with the haversine formula; being transcendental
it is abstracted as the `dist` parameter. -/

/-- Cumulative distance recursion: entry `i` is the arc length from the path
start to vertex `i`. -/
def cumAux (dist : OSMPoint → OSMPoint → ℚ) :
    OSMPoint → List OSMPoint → ℚ → List ℚ
  | _, [], _ => []
  | prev, p :: rest, acc =>
    let acc' := acc + dist prev p
    acc' :: cumAux dist p rest acc'

/-- The cumulative-distance array (`cumulativeDistances`). -/
def cumulative (dist : OSMPoint → OSMPoint → ℚ) (path : List OSMPoint) : List ℚ :=
  match path with
  | [] => [0]
  | p :: rest => 0 :: cumAux dist p rest 0

/-- Total arc length of the path (last cumulative entry). -/
def totalPathLength (dist : OSMPoint → OSMPoint → ℚ) (path : List OSMPoint) : ℚ :=
  (cumulative dist path).getLast?.getD 0

/-- The forward-advancing cursor (osm service lines 432-434): smallest index at
or after `cur` whose cumulative distance reaches `target`, capped at the path
length. -/
def advanceIdx (cum : List ℚ) (pathLen : ℕ) (target : ℚ) :
    ℕ → ℕ → ℕ
  | 0, cur => cur
  | fuel + 1, cur =>
    if cur < pathLen ∧ cum.getD cur 0 < target then
      advanceIdx cum pathLen target fuel (cur + 1)
    else cur

/-- Mutable state of the sampling loop: the cursor, the samples gathered so
far, and whether the loop has hit `break` (cursor past the end). -/
structure SampleState where
  cur : ℕ
  samples : List OSMPoint
  done : Bool
deriving Repr

/-- One iteration of the sampling loop for the `k`-th target distance
(osm service lines 427-469): skip negative targets, advance the cursor, stop
past the end, emit at most one point from a zero-length segment, otherwise
linearly interpolate within the bracketing segment and inherit the leading
vertex's attributes. -/
def sampleStep (path : List OSMPoint) (cum : List ℚ)
    (startOffsetKm distanceKm : ℚ) (st : SampleState) (k : ℕ) : SampleState :=
  if st.done then st
  else
    let target := startOffsetKm + (k : ℚ) * distanceKm
    if target < 0 then st
    else
      let cur := advanceIdx cum path.length target path.length st.cur
      if path.length ≤ cur then { st with done := true }
      else
        let p1 := path.getD (cur - 1) dfltPoint
        let p2 := path.getD cur dfltPoint
        let segStart := cum.getD (cur - 1) 0
        let segLen := cum.getD cur 0 - segStart
        if segLen = 0 then
          let keep : Bool :=
            match st.samples.getLast? with
            | none => true
            | some lastS => decide (lastS.lat ≠ p1.lat ∧ lastS.lon ≠ p1.lon)
          if keep then { st with cur := cur, samples := st.samples ++ [p1] }
          else { st with cur := cur }
        else
          let fraction := (target - segStart) / segLen
          let lat := p1.lat + (p2.lat - p1.lat) * fraction
          let lon := p1.lon + (p2.lon - p1.lon) * fraction
          { st with cur := cur, samples := st.samples ++ [⟨lat, lon, p1.speed, p1.wayId⟩] }

/-- The sampler: empty for short paths or a non-positive interval, empty when
the start offset reaches a positive total length, otherwise one loop iteration
per target distance `offset + k * interval` below the total length. -/
def getSamplePoints (dist : OSMPoint → OSMPoint → ℚ) (path : List OSMPoint)
    (distanceKm startOffsetKm : ℚ) : List OSMPoint :=
  if path.length < 2 ∨ distanceKm ≤ 0 then []
  else
    let cum := cumulative dist path
    let total := (cum.getLast?).getD 0
    if startOffsetKm ≥ total ∧ 0 < total then []
    else
      let n := (⌈(total - startOffsetKm) / distanceKm⌉).toNat
      ((List.range n).foldl (sampleStep path cum startOffsetKm distanceKm)
        ⟨1, [], false⟩).samples

/-! ### Analysis pipeline (`handleAnalyzeClick` worker, app lines 259-399)

Network results are modelled as functions of the task index: the street-view
image fetch either rejects with an error message or yields base64 bytes, the
metadata fetch either fails (a warning only) or yields a capture date, and the
Gemini call either throws a message or returns a parsed result (possibly
null).  The bearing computation is trigonometric and abstracted; the lateral
`offsetLocation` feeds only the request coordinates, which the index-keyed
environment already absorbs. -/

/-- Reference to the imagery attached to a result: the initial placeholder GIF
or the fetched JPEG bytes. -/
inductive ImageRef
  | placeholder
  | jpeg (base64 : String)
deriving DecidableEq, Repr

/-- The terminal artifact stored per task (`AnalyzedPoint` in types.ts).  The
JavaScript id is the string `lat-lon`; it is modelled by the coordinate pair. -/
structure AnalyzedPoint where
  idLat : ℚ
  idLon : ℚ
  location : OSMPoint
  osmSpeed : Option String
  detectedSpeed : Option ℚ
  confidence : Option ℚ
  isDiscrepancy : Bool
  imageUrl : ImageRef
  heading : ℚ
  wayId : Option ℕ
  imageDate : Option String
deriving DecidableEq, Repr

/-- The per-run environment of external collaborators, keyed by task index. -/
structure TaskEnv where
  image : ℕ → String ⊕ String
  metadata : ℕ → String ⊕ String
  gemini : ℕ → String ⊕ Option GeminiAnalysisResult
  bearing : OSMPoint → OSMPoint → ℚ

/-- Fatal-error test (app lines 368-369): the lower-cased message mentions an
api key, a permission problem or 403 forbidden. -/
def isFatalMsg (msg : String) : Bool :=
  containsSub "api key".data (lowerChars msg) ||
  containsSub "permission".data (lowerChars msg) ||
  containsSub "403 forbidden".data (lowerChars msg)

/-- Forward heading of a task (app lines 272-277): bearing to the next sample
point when one exists, else from the previous one, else 0. -/
def forwardHeading (env : TaskEnv) (pts : List OSMPoint) (i : ℕ)
    (p : OSMPoint) : ℚ :=
  if i < pts.length - 1 then env.bearing p (pts.getD (i + 1) dfltPoint)
  else if 0 < i then env.bearing (pts.getD (i - 1) dfltPoint) p
  else 0

/-- The failed-task artifact built in the catch block (app lines 359-366). -/
def failedPoint (p : OSMPoint) (heading : ℚ) (imageUrl : ImageRef)
    (imageDate : Option String) : AnalyzedPoint :=
  { idLat := p.lat, idLon := p.lon, location := p, osmSpeed := p.speed,
    detectedSpeed := none, confidence := none, isDiscrepancy := false,
    imageUrl := imageUrl, heading := heading, wayId := p.wayId,
    imageDate := imageDate }

/-- One task body (app lines 270-386): fetch image and metadata (a metadata
failure only loses the date), run detection, validate, classify, and build the
`AnalyzedPoint`; failures build the failed artifact instead.  The second
component is the error re-thrown out of the worker, which the catch block
re-raises exactly for fatal messages. -/
def runTask (country : String) (threshold : ℚ) (env : TaskEnv)
    (pts : List OSMPoint) (i : ℕ) (p : OSMPoint) :
    AnalyzedPoint × Option String :=
  let heading := forwardHeading env pts i p
  match env.image i with
  | Sum.inl err =>
    (failedPoint p heading ImageRef.placeholder none,
      if isFatalMsg err then some err else none)
  | Sum.inr b64 =>
    let imageDate : Option String :=
      match env.metadata i with
      | Sum.inl _ => none
      | Sum.inr d => some d
    match env.gemini i with
    | Sum.inl err =>
      (failedPoint p heading (ImageRef.jpeg b64) imageDate,
        if isFatalMsg err then some err else none)
    | Sum.inr res =>
      let fd := validateDetected country threshold res
      ({ idLat := p.lat, idLon := p.lon, location := p, osmSpeed := p.speed,
         detectedSpeed := fd, confidence := res.map (fun r => r.confidence),
         isDiscrepancy := classifyDiscrepancy country p.speed fd,
         imageUrl := ImageRef.jpeg b64, heading := heading, wayId := p.wayId,
         imageDate := imageDate }, none)

/-- Outcome of one worker's sequential loop: the results array, the shared
cancellation flag, and the worker promise's rejection (if any). -/
structure RunResult where
  results : List (Option AnalyzedPoint)
  cancelled : Bool
  workerRejection : Option String
deriving DecidableEq, Repr

/-- The worker loop at concurrency one (app lines 262-388): check the
cancellation flag, dequeue, run the task, store the artifact at the task's
original index, and on a fatal error set the flag and reject the worker
promise.  Fuel equals the initial queue length. -/
def workerSeq (country : String) (threshold : ℚ) (env : TaskEnv)
    (pts : List OSMPoint) :
    ℕ → List (ℕ × OSMPoint) → Bool → List (Option AnalyzedPoint) → RunResult
  | 0, _, cancelled, results => ⟨results, cancelled, none⟩
  | fuel + 1, queue, cancelled, results =>
    if cancelled then ⟨results, cancelled, none⟩
    else
      match queue with
      | [] => ⟨results, cancelled, none⟩
      | (i, p) :: rest =>
        let r := runTask country threshold env pts i p
        let results' := results.set i (some r.1)
        match r.2 with
        | some err => ⟨results', true, some err⟩
        | none => workerSeq country threshold env pts fuel rest cancelled results'

/-- A full sequential pipeline run over the enumerated sample points. -/
def runPipelineSeq (country : String) (threshold : ℚ) (env : TaskEnv)
    (pts : List OSMPoint) : RunResult :=
  workerSeq country threshold env pts pts.length pts.enum false
    (List.replicate pts.length none)

/-- Semantics of `await Promise.allSettled(workers)` (app line 391): worker
rejections are converted into settled entries, so the awaiting caller resumes
normally whatever the workers did and no error escapes to the surrounding
try/catch. -/
def promiseAllSettled (_rejection : Option String) : Option String := none

/-- What the caller observes after the worker phase (app lines 391-406): the
non-null results in index order, and the terminal error that reaches the
caller's catch block from the workers. -/
structure CallerView where
  analyzedPoints : List AnalyzedPoint
  terminalError : Option String
deriving DecidableEq, Repr

/-- The caller-side wrap-up of a pipeline run. -/
def handleAnalyzeWorkers (country : String) (threshold : ℚ) (env : TaskEnv)
    (pts : List OSMPoint) : CallerView :=
  let run := runPipelineSeq country threshold env pts
  { analyzedPoints := run.results.filterMap id,
    terminalError := promiseAllSettled run.workerRejection }

/-- The max-points cap (app lines 245-248). -/
def capPoints (pts : List OSMPoint) (maxPoints : ℕ) : List OSMPoint :=
  if maxPoints < pts.length then pts.take maxPoints else pts

/-! ### Concurrent pipeline machine (claim C2)

Workers are modelled by a small-step relation: a claim step atomically
dequeues a task when the cancellation flag is clear; a completion step (for
any in-flight task, in any order) stores the artifact at the task's original
index and raises the flag when the task classified its failure as fatal. -/

/-- Removal of the first occurrence of a completed task from the in-flight
list. -/
def removeFirst : List (ℕ × OSMPoint) → (ℕ × OSMPoint) → List (ℕ × OSMPoint)
  | [], _ => []
  | x :: xs, t => if x = t then xs else x :: removeFirst xs t

/-- State of the concurrent pipeline. -/
structure PipeState where
  queue : List (ℕ × OSMPoint)
  inFlight : List (ℕ × OSMPoint)
  results : List (Option AnalyzedPoint)
  cancelled : Bool
deriving DecidableEq, Repr

/-- Steps of the concurrent pipeline.  A worker claims the queue head only
while the cancellation flag is clear (`if (isCancelledRef.current) break`
precedes `queue.shift()`); a completion may happen for any in-flight task in
any order, stores the artifact at the task's original sample index, and raises
the flag when the task's failure was classified fatal. -/
inductive PipeStep (country : String) (threshold : ℚ) (env : TaskEnv)
    (pts : List OSMPoint) : PipeState → PipeState → Prop
  | claim (t : ℕ × OSMPoint) (rest fl : List (ℕ × OSMPoint))
      (res : List (Option AnalyzedPoint)) :
      PipeStep country threshold env pts
        ⟨t :: rest, fl, res, false⟩ ⟨rest, fl ++ [t], res, false⟩
  | complete (q fl : List (ℕ × OSMPoint)) (res : List (Option AnalyzedPoint))
      (c : Bool) (t : ℕ × OSMPoint) :
      t ∈ fl →
      PipeStep country threshold env pts
        ⟨q, fl, res, c⟩
        ⟨q, removeFirst fl t,
          res.set t.1 (some (runTask country threshold env pts t.1 t.2).1),
          c || (runTask country threshold env pts t.1 t.2).2.isSome⟩

/-- The initial state of a run over `pts`. -/
def initState (pts : List OSMPoint) : PipeState :=
  ⟨pts.enum, [], List.replicate pts.length none, false⟩

/-- Reachability of a pipeline state from the initial state. -/
def PipeReach (country : String) (threshold : ℚ) (env : TaskEnv)
    (pts : List OSMPoint) (s : PipeState) : Prop :=
  Relation.ReflTransGen (PipeStep country threshold env pts) (initState pts) s

/-- C3: the discrepancy flag computed by the worker agrees with the
specification's characterization (both-present numeric comparison after unit
conversion with 5-unit tolerance, non-numeric recorded tag with a detection,
detection with no recorded tag), and the three concrete examples behave as the
specification states: recorded "50 mph" with detected 80 in a km/h country is
no discrepancy; recorded null with detected 60 is a discrepancy; recorded
"signals" with detected 40 is a discrepancy. -/
theorem c3_discrepancy_classification :
    (∀ (country : String) (recorded : Option String) (detected : Option ℚ),
      classifyDiscrepancy country recorded detected = true ↔
        claimDiscrepancy country recorded detected)
    ∧ classifyDiscrepancy "CAN" (some "50 mph") (some 80) = false
    ∧ classifyDiscrepancy "CAN" none (some 60) = true
    ∧ classifyDiscrepancy "CAN" (some "signals") (some 40) = true := by
  refine ⟨classify_iff_claim, ?_, rfl, ?_⟩
  · have h1 : firstNumericRun "50 mph".data = some 50 := by decide
    have h2 : containsSub "mph".data (lowerChars "50 mph") = true := by decide
    have h3 : (("CAN" : String) == "USA") = false := by decide
    simp only [classifyDiscrepancy, h1, h2, h3, if_true, if_false,
      Bool.false_eq_true, mphToKmh]
    norm_num [abs_le]
  · have h1 : firstNumericRun "signals".data = none := by decide
    simp only [classifyDiscrepancy, h1]

/-- C8: given a detection result whose raw value is present, the worker's
validation discards the value (yields null) iff the confidence is strictly
below the threshold or the value lies outside the country-specific
plausibility bounds (5-90 for the USA's mph system, 10-150 for the km/h
system). -/
theorem c8_detection_validation (country : String) (threshold : ℚ)
    (res : GeminiAnalysisResult) (v : ℚ) (hv : res.speed_limit = some v) :
    validateDetected country threshold (some res) = none ↔
      (res.confidence < threshold ∨
        v < minPlausible country ∨ maxPlausible country < v) := by
  simp only [validateDetected, Option.bind, Option.map, hv]
  by_cases hc : res.confidence < threshold
  · simp [hc]
  · simp only [hc, if_false]
    by_cases h1 : minPlausible country ≤ v ∧ v ≤ maxPlausible country
    · rw [if_pos h1]
      simp only [hc, false_or]
      constructor
      · intro h; exact absurd h (by simp)
      · rintro (h | h)
        · exact absurd h (not_lt.mpr h1.1)
        · exact absurd h (not_lt.mpr h1.2)
    · rw [if_neg h1]
      simp only [hc, false_or, true_iff]
      rcases not_and_or.mp h1 with h | h
      · exact Or.inl (lt_of_not_le h)
      · exact Or.inr (lt_of_not_le h)

/-- C8 witness: the validation at a concrete low-confidence detection. -/
theorem c8_detection_validation_witness :
    validateDetected "USA" (3/10) (some ⟨some 55, 1/10⟩) = none ∧
      ((1:ℚ)/10 < 3/10 ∨ (55:ℚ) < minPlausible "USA" ∨ maxPlausible "USA" < 55) :=
  have h := c8_detection_validation "USA" (3/10) ⟨some 55, 1/10⟩ 55 rfl
  ⟨h.mpr (Or.inl (by norm_num)), Or.inl (by norm_num)⟩

/-! ### Claim C7: sampler boundary conditions -/

/-- C7: for every distance function, path, interval and start offset, the
sampler returns an empty sample set (rather than raising) whenever the
interval is non-positive, and whenever the start offset is at or beyond the
total path arc length. -/
theorem c7_sampler_boundaries (dist : OSMPoint → OSMPoint → ℚ)
    (path : List OSMPoint) (d off : ℚ) :
    (d ≤ 0 → getSamplePoints dist path d off = []) ∧
    (totalPathLength dist path ≤ off → getSamplePoints dist path d off = []) := by
  constructor
  · intro hd
    simp [getSamplePoints, hd]
  · intro hoff
    unfold getSamplePoints
    by_cases hshort : path.length < 2 ∨ d ≤ 0
    · simp [hshort]
    · rw [if_neg hshort]
      push_neg at hshort
      have hd : 0 < d := hshort.2
      have htot : totalPathLength dist path =
          ((cumulative dist path).getLast?).getD 0 := rfl
      by_cases hpos : 0 < ((cumulative dist path).getLast?).getD 0
      · rw [if_pos ⟨by rw [htot] at hoff; exact hoff, hpos⟩]
      · rw [if_neg (fun h => hpos h.2)]
        have hn : (⌈(((cumulative dist path).getLast?).getD 0 - off) / d⌉).toNat = 0 := by
          rw [Int.toNat_eq_zero]
          refine Int.ceil_le.mpr ?_
          push_cast
          apply div_nonpos_of_nonpos_of_nonneg
          · rw [sub_nonpos, ← htot]; exact hoff
          · exact le_of_lt hd
        simp only [hn, List.range_zero, List.foldl_nil]

/-- C7 witness: a concrete path of total length 2 sampled from offset 100, and
a non-positive interval. -/
theorem c7_sampler_boundaries_witness :
    getSamplePoints (fun p q => |q.lat - p.lat| + |q.lon - p.lon|)
        [⟨0, 0, some "50", some 1⟩, ⟨2, 0, some "50", some 1⟩] 1 100 = [] ∧
      getSamplePoints (fun p q => |q.lat - p.lat| + |q.lon - p.lon|)
        [⟨0, 0, some "50", some 1⟩, ⟨2, 0, some "50", some 1⟩] 0 0 = [] := by
  constructor
  · exact (c7_sampler_boundaries _ _ 1 100).2 (by
      show totalPathLength _ _ ≤ _
      norm_num [totalPathLength, cumulative, cumAux, abs_le])
  · exact (c7_sampler_boundaries _ _ 0 0).1 le_rfl

/-! ### Claim C9: speed-tag carry-forward -/

/-- The per-element effect of the carry-forward loop body. -/
def carryStep (prevOpt : Option OSMPoint) (p : OSMPoint) : OSMPoint :=
  match prevOpt with
  | none => p
  | some prev =>
    if p.speed = none then { p with speed := prev.speed, wayId := prev.wayId } else p

theorem carryForwardGo_spec (pts : List OSMPoint) (prevOpt : Option OSMPoint) :
    (carryForwardGo prevOpt pts).length = pts.length ∧
    ∀ i, i < pts.length →
      (carryForwardGo prevOpt pts).getD i dfltPoint =
        carryStep
          (if i = 0 then prevOpt
            else some ((carryForwardGo prevOpt pts).getD (i - 1) dfltPoint))
          (pts.getD i dfltPoint) := by
  induction pts generalizing prevOpt with
  | nil => exact ⟨by cases prevOpt <;> rfl, fun i hi => absurd hi (Nat.not_lt_zero i)⟩
  | cons p rest ih =>
    have hgo : carryForwardGo prevOpt (p :: rest) =
        carryStep prevOpt p :: carryForwardGo (some (carryStep prevOpt p)) rest := by
      cases prevOpt with
      | none => rfl
      | some prev => rfl
    rw [hgo]
    obtain ⟨ihlen, ihget⟩ := ih (some (carryStep prevOpt p))
    refine ⟨by simpa using ihlen, ?_⟩
    intro i hi
    cases i with
    | zero => simp
    | succ j =>
      have hj : j < rest.length := Nat.lt_of_succ_lt_succ hi
      simp only [List.getD_cons_succ, Nat.succ_ne_zero, if_false,
        Nat.succ_sub_one]
      cases j with
      | zero => simpa using ihget 0 hj
      | succ k =>
        have := ihget (k + 1) hj
        simpa [Nat.succ_sub_one] using this

/-- C9: after the carry-forward pass, a point with a missing speed tag and a
predecessor carries the speed tag and fragment id of the immediately
preceding, already-processed point; points with a present tag, and the first
point, are unchanged; the pass preserves the path length. -/
theorem c9_carry_forward (pts : List OSMPoint) (i : ℕ) (hi : i < pts.length) :
    (carryForward pts).length = pts.length ∧
    ((pts.getD i dfltPoint).speed ≠ none ∨ i = 0 →
      (carryForward pts).getD i dfltPoint = pts.getD i dfltPoint) ∧
    ((pts.getD i dfltPoint).speed = none → 0 < i →
      (carryForward pts).getD i dfltPoint =
        { pts.getD i dfltPoint with
          speed := ((carryForward pts).getD (i - 1) dfltPoint).speed,
          wayId := ((carryForward pts).getD (i - 1) dfltPoint).wayId }) := by
  obtain ⟨hlen, hget⟩ := carryForwardGo_spec pts none
  refine ⟨hlen, ?_, ?_⟩
  · intro hcase
    have h := hget i hi
    rcases hcase with hs | h0
    · rcases Nat.eq_zero_or_pos i with h0 | hpos
      · rw [carryForward, h, if_pos h0]; rfl
      · rw [carryForward, h, if_neg (Nat.pos_iff_ne_zero.mp hpos)]
        show (if (pts.getD i dfltPoint).speed = none then _ else _) = _
        rw [if_neg hs]
    · rw [carryForward, h, if_pos h0]; rfl
  · intro hs hpos
    have h := hget i hi
    rw [carryForward, h, if_neg (Nat.pos_iff_ne_zero.mp hpos)]
    show (if (pts.getD i dfltPoint).speed = none then _ else _) = _
    rw [if_pos hs]

/-- C9 witness: a three-point path whose middle point misses its tag inherits
the first point's tag and way id. -/
theorem c9_carry_forward_witness :
    (carryForward [⟨0, 0, some "40", some 1⟩, ⟨1, 0, none, some 2⟩,
        ⟨2, 0, some "60", some 3⟩]).length = 3 ∧
      (carryForward [⟨0, 0, some "40", some 1⟩, ⟨1, 0, none, some 2⟩,
          ⟨2, 0, some "60", some 3⟩]).getD 1 dfltPoint =
        ⟨1, 0, some "40", some 1⟩ := by
  have h := c9_carry_forward
    [⟨0, 0, some "40", some 1⟩, ⟨1, 0, none, some 2⟩, ⟨2, 0, some "60", some 3⟩]
    1 (by norm_num)
  refine ⟨h.1, ?_⟩
  rw [h.2.2 rfl (by norm_num)]
  rfl

/-! ### Claim C10: the max-points cap -/

theorem workerSeq_results_length (country : String) (threshold : ℚ)
    (env : TaskEnv) (pts : List OSMPoint) (fuel : ℕ) :
    ∀ (queue : List (ℕ × OSMPoint)) (c : Bool)
      (results : List (Option AnalyzedPoint)),
      (workerSeq country threshold env pts fuel queue c results).results.length =
        results.length := by
  induction fuel with
  | zero => intro queue c results; rfl
  | succ n ih =>
    intro queue c results
    cases c with
    | true => simp [workerSeq]
    | false =>
      cases queue with
      | nil => simp [workerSeq]
      | cons tp rest =>
        obtain ⟨i, p⟩ := tp
        simp only [workerSeq, Bool.false_eq_true, if_false]
        cases hr : (runTask country threshold env pts i p).2 with
        | some err => simp [hr, List.length_set]
        | none => simp [hr, ih, List.length_set]

/-- C10: when the sampler produces more points than the configured maximum,
the pipeline's task list is exactly the first `maxPoints` samples in path
order, and neither the results array nor the caller-visible output ever
contains more than `maxPoints` entries. -/
theorem c10_max_points_cap (country : String) (threshold : ℚ) (env : TaskEnv)
    (pts : List OSMPoint) (maxPoints : ℕ) (h : maxPoints < pts.length) :
    capPoints pts maxPoints = pts.take maxPoints ∧
    (runPipelineSeq country threshold env (capPoints pts maxPoints)).results.length
      ≤ maxPoints ∧
    (handleAnalyzeWorkers country threshold env
        (capPoints pts maxPoints)).analyzedPoints.length ≤ maxPoints := by
  have hcap : capPoints pts maxPoints = pts.take maxPoints := by
    simp [capPoints, h]
  have hlen :
      (runPipelineSeq country threshold env (capPoints pts maxPoints)).results.length
        ≤ maxPoints := by
    rw [runPipelineSeq, workerSeq_results_length, List.length_replicate, hcap]
    exact List.length_take_le maxPoints pts
  refine ⟨hcap, hlen, ?_⟩
  calc (handleAnalyzeWorkers country threshold env
        (capPoints pts maxPoints)).analyzedPoints.length
      ≤ (runPipelineSeq country threshold env (capPoints pts maxPoints)).results.length :=
        List.length_filterMap_le _ _
    _ ≤ maxPoints := hlen

/-- C10 witness: three sample points capped to two. -/
theorem c10_max_points_cap_witness :
    capPoints [⟨0, 0, none, none⟩, ⟨1, 0, none, none⟩, ⟨2, 0, none, none⟩] 2 =
        [⟨0, 0, none, none⟩, ⟨1, 0, none, none⟩] ∧
      (2 : ℕ) < 3 := by
  have h := c10_max_points_cap "USA" (3/10)
    ⟨fun _ => Sum.inl "x", fun _ => Sum.inl "x", fun _ => Sum.inl "x", fun _ _ => 0⟩
    [⟨0, 0, none, none⟩, ⟨1, 0, none, none⟩, ⟨2, 0, none, none⟩] 2 (by norm_num)
  exact ⟨h.1, by norm_num⟩

/-! ### Claim C1: fatal errors and `Promise.allSettled` -/

/-- A street-view rejection message of the fatal (authorization) class. -/
def c1Msg : String :=
  "Street View API request failed: 403 Forbidden. The API key is missing permissions."

/-- A run environment whose imagery fetch always rejects with `c1Msg`. -/
def c1Env : TaskEnv :=
  { image := fun _ => Sum.inl c1Msg,
    metadata := fun _ => Sum.inl "x",
    gemini := fun _ => Sum.inl "x",
    bearing := fun _ _ => 0 }

/-- Two sample points; the first task fails fatally. -/
def c1Pts : List OSMPoint := [⟨1, 2, none, some 7⟩, ⟨3, 4, none, some 7⟩]

/-- C1, evaluated at the failing input: the first task's error message is of
the fatal class, the run is marked cancelled and the second task is never
dispatched (its slot stays empty) — but the fatal error, although re-thrown by
the worker (`workerRejection`), is converted to a settled result by
`Promise.allSettled`, so the caller-visible terminal error is `none` and the
error is never propagated, contradicting the claim (and the worker's own
comment that the re-thrown error is "caught by the main handler"). -/
theorem c1_fatal_not_propagated :
    isFatalMsg c1Msg = true ∧
    (runPipelineSeq "USA" (3/10) c1Env c1Pts).cancelled = true ∧
    (runPipelineSeq "USA" (3/10) c1Env c1Pts).workerRejection = some c1Msg ∧
    (runPipelineSeq "USA" (3/10) c1Env c1Pts).results.get? 1 = some none ∧
    (handleAnalyzeWorkers "USA" (3/10) c1Env c1Pts).terminalError = none := by
  refine ⟨by decide, ?_, ?_, ?_, rfl⟩
  · rfl
  · rfl
  · rfl

/-! ### Claim C6: direction normalization -/

/-- C6: for a non-empty assembled path, when more than half of the canonical
chain's fragments are flagged one-way the assembled order is preserved;
otherwise the sequence is reversed exactly when its start is after its end
along the dominant axis (north-south when the latitude span exceeds the
longitude span, else west-east), so the normalized path runs north-to-south,
respectively west-to-east. -/
theorem c6_direction_normalization (ways : List Way) (chain : List ℕ)
    (fp : List OSMPoint) (fpt lpt : OSMPoint)
    (hh : fp.head? = some fpt) (hl : fp.getLast? = some lpt) :
    ((0 < chain.length ∧
        (onewayCount ways chain : ℚ) / (chain.length : ℚ) > 1 / 2) →
      normalizeDirection ways chain fp = fp) ∧
    (¬(0 < chain.length ∧
        (onewayCount ways chain : ℚ) / (chain.length : ℚ) > 1 / 2) →
      (normalizeDirection ways chain fp =
        if (if |lpt.lat - fpt.lat| > |lpt.lon - fpt.lon|
            then fpt.lat < lpt.lat else fpt.lon > lpt.lon)
          then fp.reverse else fp) ∧
      (|lpt.lat - fpt.lat| > |lpt.lon - fpt.lon| →
        ((normalizeDirection ways chain fp).getLast?.getD dfltPoint).lat ≤
          ((normalizeDirection ways chain fp).head?.getD dfltPoint).lat) ∧
      (¬(|lpt.lat - fpt.lat| > |lpt.lon - fpt.lon|) →
        ((normalizeDirection ways chain fp).head?.getD dfltPoint).lon ≤
          ((normalizeDirection ways chain fp).getLast?.getD dfltPoint).lon)) := by
  have hne : fp.isEmpty = false := by
    cases fp with
    | nil => exact absurd hh (by simp)
    | cons a l => rfl
  constructor
  · intro hfrac
    rw [normalizeDirection, if_neg (by simp [hne]), if_pos hfrac]
  · intro hfrac
    have hnorm : normalizeDirection ways chain fp =
        if (if |lpt.lat - fpt.lat| > |lpt.lon - fpt.lon|
            then fpt.lat < lpt.lat else fpt.lon > lpt.lon)
          then fp.reverse else fp := by
      rw [normalizeDirection, if_neg (by simp [hne]), if_neg hfrac, hh, hl]
    refine ⟨hnorm, ?_, ?_⟩
    · intro hNS
      rw [hnorm]
      by_cases hrev : (if |lpt.lat - fpt.lat| > |lpt.lon - fpt.lon|
          then fpt.lat < lpt.lat else fpt.lon > lpt.lon)
      · rw [if_pos hrev]
        rw [if_pos hNS] at hrev
        rw [List.head?_reverse, List.getLast?_reverse, hh, hl]
        exact le_of_lt hrev
      · rw [if_neg hrev]
        rw [if_pos hNS] at hrev
        rw [hh, hl]
        exact not_lt.mp hrev
    · intro hNS
      rw [hnorm]
      by_cases hrev : (if |lpt.lat - fpt.lat| > |lpt.lon - fpt.lon|
          then fpt.lat < lpt.lat else fpt.lon > lpt.lon)
      · rw [if_pos hrev]
        rw [if_neg hNS] at hrev
        rw [List.head?_reverse, List.getLast?_reverse, hh, hl]
        exact le_of_lt hrev
      · rw [if_neg hrev]
        rw [if_neg hNS] at hrev
        rw [hh, hl]
        exact not_lt.mp hrev

/-- C6 witness: a two-point south-to-north path over a chain with no one-way
fragments is reversed to run north-to-south. -/
theorem c6_direction_normalization_witness :
    normalizeDirection [⟨1, [1, 2], none, "no"⟩] [1]
        [⟨0, 0, none, some 1⟩, ⟨4, 1, none, some 1⟩] =
      [⟨4, 1, none, some 1⟩, ⟨0, 0, none, some 1⟩] ∧
    ¬((0 : ℕ) < 1 ∧
        ((onewayCount [⟨1, [1, 2], none, "no"⟩] [1] : ℚ) / ((1 : ℕ) : ℚ) > 1 / 2)) := by
  have hcount : onewayCount [⟨1, [1, 2], none, "no"⟩] [1] = 0 := by
    decide
  have hfrac : ¬((0 : ℕ) < 1 ∧
      ((onewayCount [⟨1, [1, 2], none, "no"⟩] [1] : ℚ) / ((1 : ℕ) : ℚ) > 1 / 2)) := by
    rw [hcount]
    norm_num
  have h := c6_direction_normalization [⟨1, [1, 2], none, "no"⟩] [1]
    [⟨0, 0, none, some 1⟩, ⟨4, 1, none, some 1⟩]
    ⟨0, 0, none, some 1⟩ ⟨4, 1, none, some 1⟩ rfl rfl
  have h2 := (h.2 (by simpa using hfrac)).1
  refine ⟨?_, by simpa using hfrac⟩
  rw [h2, if_pos]
  · rfl
  · norm_num

/-! ### Claim C5: longest-chain selection -/

theorem insertChainDesc_head (c : List ℕ) (s : List (List ℕ)) :
    (insertChainDesc c s).head? = pickLonger c s.head? := by
  cases s with
  | nil => rfl
  | cons d ds =>
    rw [insertChainDesc]
    by_cases hlt : c.length < d.length
    · rw [if_pos hlt]; simp [pickLonger, hlt]
    · rw [if_neg hlt]; simp [pickLonger, hlt]

theorem insertChainDesc_ne_nil (c : List ℕ) (s : List (List ℕ)) :
    insertChainDesc c s ≠ [] := by
  induction s with
  | nil => simp [insertChainDesc]
  | cons d ds ih =>
    simp only [insertChainDesc]
    by_cases hlt : c.length < d.length
    · simp [hlt]
    · simp [hlt]

theorem sortChainsDesc_eq_nil (l : List (List ℕ)) :
    sortChainsDesc l = [] ↔ l = [] := by
  cases l with
  | nil => simp [sortChainsDesc]
  | cons c cs =>
    simp only [sortChainsDesc]
    constructor
    · intro h
      exact absurd h (insertChainDesc_ne_nil c (sortChainsDesc cs))
    · intro h; exact absurd h (by simp)

theorem sortChainsDesc_head_eq_firstArgmax (l : List (List ℕ)) :
    (sortChainsDesc l).head? = firstArgmax l := by
  induction l with
  | nil => rfl
  | cons c cs ih =>
    rw [sortChainsDesc, firstArgmax, insertChainDesc_head, ih]

theorem firstArgmax_mem (l : List (List ℕ)) (d : List ℕ)
    (h : firstArgmax l = some d) : d ∈ l := by
  induction l with
  | nil => exact absurd h (by simp [firstArgmax])
  | cons c cs ih =>
    rw [firstArgmax] at h
    cases hfa : firstArgmax cs with
    | none =>
      rw [hfa] at h
      rw [show pickLonger c none = some c from rfl] at h
      simp only [Option.some_inj] at h
      subst h
      exact List.mem_cons_self c cs
    | some e =>
      rw [hfa] at h
      rw [show pickLonger c (some e) =
        (if c.length < e.length then some e else some c) from rfl] at h
      by_cases hlt : c.length < e.length
      · rw [if_pos hlt] at h
        simp only [Option.some_inj] at h
        subst h
        exact List.mem_cons_of_mem c (ih hfa)
      · rw [if_neg hlt] at h
        simp only [Option.some_inj] at h
        subst h
        exact List.mem_cons_self c cs

theorem firstArgmax_strict (l : List (List ℕ)) (best : List ℕ)
    (hmem : best ∈ l)
    (hstr : ∀ c ∈ l, c ≠ best → c.length < best.length) :
    firstArgmax l = some best := by
  induction l with
  | nil => exact absurd hmem (by simp)
  | cons c cs ih =>
    by_cases hcbest : c = best
    · subst hcbest
      rw [firstArgmax]
      cases hfa : firstArgmax cs with
      | none => rfl
      | some d =>
        have hd : d ∈ c :: cs := List.mem_cons_of_mem c (firstArgmax_mem cs d hfa)
        rw [show pickLonger c (some d) =
          (if c.length < d.length then some d else some c) from rfl]
        by_cases hdc : d = c
        · subst hdc
          rw [if_neg (lt_irrefl d.length)]
        · rw [if_neg (not_lt.mpr (le_of_lt (hstr d hd hdc)))]
    · have hcs : best ∈ cs := by
        rcases List.mem_cons.mp hmem with hc | hcs
        · exact absurd hc.symm hcbest
        · exact hcs
      have hih : firstArgmax cs = some best :=
        ih hcs (fun e he hne => hstr e (List.mem_cons_of_mem c he) hne)
      rw [firstArgmax, hih,
        show pickLonger c (some best) =
          (if c.length < best.length then some best else some c) from rfl,
        if_pos (hstr c (List.mem_cons_self c cs) hcbest)]

/-- C5: the assembler selects the chain with strictly more fragments than any
other when one exists; with no chains it returns an empty path (not an
error); and the selection is deterministic, always the first
maximal-fragment-count chain in construction order (ES2019 stable sort). -/
theorem c5_longest_chain_selection (ways : List Way) (nm : NodeMap) :
    (∀ best ∈ buildChains ways, 2 ≤ (buildChains ways).length →
      (∀ c ∈ buildChains ways, c ≠ best → c.length < best.length) →
      (sortChainsDesc (buildChains ways)).head? = some best) ∧
    (buildChains ways = [] → assemblePath ways nm = some []) ∧
    (sortChainsDesc (buildChains ways)).head? = firstArgmax (buildChains ways) := by
  refine ⟨?_, ?_, sortChainsDesc_head_eq_firstArgmax _⟩
  · intro best hmem _ hstr
    rw [sortChainsDesc_head_eq_firstArgmax]
    exact firstArgmax_strict _ best hmem hstr
  · intro hempty
    rw [assemblePath]
    by_cases hguard : nm.isEmpty || ways.isEmpty
    · rw [if_pos hguard]
    · rw [if_neg hguard, hempty]
      rfl

/-- C5 witness: with a one-fragment chain and a two-fragment chain, the
two-fragment chain is selected. -/
theorem c5_longest_chain_selection_witness :
    (sortChainsDesc (buildChains
        [⟨1, [1, 2], none, "no"⟩, ⟨2, [3, 4], none, "no"⟩,
          ⟨3, [4, 5], none, "no"⟩])).head? = some [2, 3] ∧
      [2, 3] ∈ buildChains
        [⟨1, [1, 2], none, "no"⟩, ⟨2, [3, 4], none, "no"⟩, ⟨3, [4, 5], none, "no"⟩] := by
  have hmem : [2, 3] ∈ buildChains
      [⟨1, [1, 2], none, "no"⟩, ⟨2, [3, 4], none, "no"⟩, ⟨3, [4, 5], none, "no"⟩] := by
    decide
  exact ⟨(c5_longest_chain_selection
      [⟨1, [1, 2], none, "no"⟩, ⟨2, [3, 4], none, "no"⟩, ⟨3, [4, 5], none, "no"⟩]
      []).1 [2, 3] hmem (by decide) (by decide), hmem⟩

/-! ### Claim C2: result-slot integrity under any completion order -/

theorem lt_of_get?_some {α : Type} (l : List α) (n : ℕ) (a : α)
    (h : l.get? n = some a) : n < l.length := by
  by_contra hn
  rw [List.get?_eq_none.mpr (le_of_not_lt hn)] at h
  exact Option.noConfusion h

theorem perm_cons_removeFirst (fl : List (ℕ × OSMPoint)) (t : ℕ × OSMPoint)
    (h : t ∈ fl) : List.Perm fl (t :: removeFirst fl t) := by
  induction fl with
  | nil => exact absurd h (by simp)
  | cons x xs ih =>
    rw [removeFirst]
    by_cases hx : x = t
    · subst hx
      rw [if_pos rfl]
    · rw [if_neg hx]
      have hmem : t ∈ xs := by
        rcases List.mem_cons.mp h with h1 | h1
        · exact absurd h1.symm hx
        · exact h1
      exact (List.Perm.cons x (ih hmem)).trans (List.Perm.swap t x _)

/-- C2: in every state reachable under any interleaving of task claims and
completions, the results array keeps the input length, the indices of pending
(queued or in-flight) tasks are distinct and their slots still empty — so each
slot is written at most once — and every slot `i` is either still empty or
holds exactly the artifact computed for input sample `i`. -/
theorem c2_result_slot_integrity (country : String) (threshold : ℚ)
    (env : TaskEnv) (pts : List OSMPoint) (s : PipeState)
    (h : PipeReach country threshold env pts s) :
    s.results.length = pts.length ∧
    ((s.queue ++ s.inFlight).map Prod.fst).Nodup ∧
    (∀ t ∈ s.queue ++ s.inFlight,
      pts.get? t.1 = some t.2 ∧ s.results.get? t.1 = some none) ∧
    ∀ i, i < pts.length →
      s.results.get? i = some none ∨
      ∃ p, pts.get? i = some p ∧
        s.results.get? i = some (some (runTask country threshold env pts i p).1) := by
  induction h with
  | refl =>
    refine ⟨List.length_replicate _ _, ?_, ?_, ?_⟩
    · simp only [initState, List.append_nil, List.enum_map_fst]
      exact List.nodup_range _
    · intro t ht
      simp only [initState, List.append_nil] at ht
      have hget : pts.get? t.1 = some t.2 := by
        rw [List.get?_eq_getElem?]
        exact List.mem_enum_iff_getElem?.mp ht
      refine ⟨hget, ?_⟩
      have hlt : t.1 < pts.length := lt_of_get?_some pts t.1 t.2 hget
      show (List.replicate pts.length (none : Option AnalyzedPoint)).get? t.1 = some none
      rw [List.get?_eq_getElem?, List.getElem?_replicate, if_pos hlt]
    · intro i hi
      left
      show (List.replicate pts.length (none : Option AnalyzedPoint)).get? i = some none
      rw [List.get?_eq_getElem?, List.getElem?_replicate, if_pos hi]
  | tail hsteps hstep ih =>
    obtain ⟨ihlen, ihnodup, ihpend, ihslot⟩ := ih
    cases hstep with
    | claim t rest fl res =>
      simp only at ihlen ihnodup ihpend ihslot ⊢
      have hperm : List.Perm (rest ++ (fl ++ [t])) ((t :: rest) ++ fl) := by
        rw [← List.append_assoc]
        exact List.perm_append_singleton _ _
      refine ⟨ihlen, ?_, ?_, ihslot⟩
      · exact ((hperm.map Prod.fst).nodup_iff).mpr ihnodup
      · intro u hu
        exact ihpend u (hperm.subset hu)
    | complete q fl res c t htin =>
      simp only at ihlen ihnodup ihpend ihslot ⊢
      obtain ⟨hpt, hslot⟩ := ihpend t (List.mem_append_right q htin)
      have ht1lt : t.1 < pts.length := lt_of_get?_some pts t.1 t.2 hpt
      have ht1ltres : t.1 < res.length := by rw [ihlen]; exact ht1lt
      have hperm : List.Perm (q ++ fl) (t :: (q ++ removeFirst fl t)) :=
        ((perm_cons_removeFirst fl t htin).append_left q).trans List.perm_middle
      have hnodup' : ((t :: (q ++ removeFirst fl t)).map Prod.fst).Nodup :=
        ((hperm.map Prod.fst).nodup_iff).mp ihnodup
      rw [List.map_cons, List.nodup_cons] at hnodup'
      refine ⟨?_, hnodup'.2, ?_, ?_⟩
      · rw [List.length_set, ihlen]
      · intro u hu
        have hu' : u ∈ q ++ fl :=
          hperm.mem_iff.mpr (List.mem_cons_of_mem t hu)
        obtain ⟨hupt, huslot⟩ := ihpend u hu'
        refine ⟨hupt, ?_⟩
        have hne : t.1 ≠ u.1 := by
          intro heq
          exact hnodup'.1 (heq ▸ List.mem_map_of_mem Prod.fst hu)
        rw [List.get?_set_ne _ _ hne]
        exact huslot
      · intro i hi
        by_cases heq : i = t.1
        · subst heq
          right
          exact ⟨t.2, hpt, List.get?_set_eq_of_lt _ ht1ltres⟩
        · have hne : t.1 ≠ i := fun h => heq h.symm
          rw [List.get?_set_ne _ _ hne]
          exact ihslot i hi

/-- Environment and input for the C2 witness run. -/
def c2Env : TaskEnv :=
  { image := fun _ => Sum.inl "network glitch",
    metadata := fun _ => Sum.inl "m",
    gemini := fun _ => Sum.inl "g",
    bearing := fun _ _ => 0 }

/-- One-point sample list for the C2 witness run. -/
def c2Pts : List OSMPoint := [⟨5, 6, none, none⟩]

/-- C2 witness: after claiming and completing the single task, slot 0 holds
exactly the artifact computed for sample 0. -/
theorem c2_result_slot_integrity_witness :
    ([some (runTask "USA" (3/10) c2Env c2Pts 0 ⟨5, 6, none, none⟩).1].get? 0 =
        some none) ∨
      ∃ p, c2Pts.get? 0 = some p ∧
        [some (runTask "USA" (3/10) c2Env c2Pts 0 ⟨5, 6, none, none⟩).1].get? 0 =
          some (some (runTask "USA" (3/10) c2Env c2Pts 0 p).1) := by
  have step1 : PipeStep "USA" (3/10) c2Env c2Pts (initState c2Pts)
      ⟨[], [] ++ [(0, ⟨5, 6, none, none⟩)], List.replicate 1 none, false⟩ :=
    PipeStep.claim (0, ⟨5, 6, none, none⟩) [] [] (List.replicate 1 none)
  have step2 : PipeStep "USA" (3/10) c2Env c2Pts
      ⟨[], [] ++ [(0, ⟨5, 6, none, none⟩)], List.replicate 1 none, false⟩
      ⟨[], removeFirst ([] ++ [(0, ⟨5, 6, none, none⟩)]) (0, ⟨5, 6, none, none⟩),
        (List.replicate 1 none).set 0
          (some (runTask "USA" (3/10) c2Env c2Pts 0 ⟨5, 6, none, none⟩).1),
        false || (runTask "USA" (3/10) c2Env c2Pts 0 ⟨5, 6, none, none⟩).2.isSome⟩ :=
    PipeStep.complete [] ([] ++ [(0, ⟨5, 6, none, none⟩)]) (List.replicate 1 none)
      false (0, ⟨5, 6, none, none⟩) (by simp)
  have hreach : PipeReach "USA" (3/10) c2Env c2Pts
      ⟨[], removeFirst ([] ++ [(0, ⟨5, 6, none, none⟩)]) (0, ⟨5, 6, none, none⟩),
        (List.replicate 1 none).set 0
          (some (runTask "USA" (3/10) c2Env c2Pts 0 ⟨5, 6, none, none⟩).1),
        false || (runTask "USA" (3/10) c2Env c2Pts 0 ⟨5, 6, none, none⟩).2.isSome⟩ :=
    (Relation.ReflTransGen.refl.tail step1).tail step2
  exact (c2_result_slot_integrity "USA" (3/10) c2Env c2Pts _ hreach).2.2.2 0
    (by norm_num [c2Pts])

/-! ### Claim C4: flattening a single simple chain

A fragment set "forms a single simple chain" when its ways can be arranged,
each possibly reversed, into one sequence linked end-to-end whose merged node
sequence repeats no node; interior junctions are endpoints of exactly their
two adjacent ways and the two path ends are endpoints of exactly one way. -/

/-- The node sequence of a way under an orientation flag. -/
def orientNodes (wb : Way × Bool) : List ℕ :=
  if wb.2 then wb.1.nodes.reverse else wb.1.nodes

/-- The merged node sequence of an arrangement: the first way's nodes in full,
each later way contributing all nodes after its shared junction. -/
def mergeSeq : List (Way × Bool) → List ℕ
  | [] => []
  | wb :: rest =>
    orientNodes wb ++ rest.flatMap (fun wb' => (orientNodes wb').drop 1)

/-- Every endpoint slot of every way (two slots per nonempty way). -/
def endpointList (ways : List Way) : List ℕ := ways.flatMap endpointIds

/-- The first node of an arrangement. -/
def arrFirstNode (arr : List (Way × Bool)) : Option ℕ :=
  arr.head?.bind (fun wb => (orientNodes wb).head?)

/-- The final node of an arrangement. -/
def arrLastNode (arr : List (Way × Bool)) : Option ℕ :=
  arr.getLast?.bind (fun wb => (orientNodes wb).getLast?)

/-- The junction between the first `j` ways of an arrangement and the rest. -/
def cutNode (arr : List (Way × Bool)) (j : ℕ) : Option ℕ :=
  (arr.take j).getLast?.bind (fun wb => (orientNodes wb).getLast?)

/-- The fragment set `ways` forms a single simple chain realized by the
arrangement `arr`: every fragment used exactly once, fragment ids distinct,
every fragment with at least two distinct nodes, consecutive oriented
fragments linked end-to-start, no node repeated along the merged sequence,
the two chain ends being endpoints of exactly one fragment and each interior
junction an endpoint of exactly its two adjacent fragments. -/
def SimpleChain (ways : List Way) (arr : List (Way × Bool)) : Prop :=
  arr ≠ [] ∧
  List.Perm (arr.map Prod.fst) ways ∧
  (ways.map Way.id).Nodup ∧
  (∀ wb ∈ arr, 2 ≤ wb.1.nodes.length ∧ wb.1.nodes.Nodup) ∧
  List.Chain' (fun u v => (orientNodes u).getLast? = (orientNodes v).head?) arr ∧
  (mergeSeq arr).Nodup ∧
  (∀ n ∈ (arrFirstNode arr).toList, (endpointList ways).count n = 1) ∧
  (∀ n ∈ (arrLastNode arr).toList, (endpointList ways).count n = 1) ∧
  (∀ j ∈ List.range arr.length, 0 < j →
    ∀ n ∈ (cutNode arr j).toList, (endpointList ways).count n = 2)

/-- All node ids referenced by the fragment set. -/
def allNodeIds (ways : List Way) : List ℕ := ways.flatMap (fun w => w.nodes)

/-- Every referenced node id resolves in the node store. -/
def NodesResolve (ways : List Way) (nm : NodeMap) : Prop :=
  ∀ w ∈ ways, ∀ n ∈ w.nodes, (nm.lookup n).isSome = true

/-- Distinct referenced node ids carry distinct coordinate pairs (the
flattener matches junctions by coordinate equality). -/
def CoordInj (ways : List Way) (nm : NodeMap) : Prop :=
  ∀ n1 ∈ allNodeIds ways, ∀ n2 ∈ allNodeIds ways,
    nm.lookup n1 = nm.lookup n2 → n1 = n2

/-- The point a resolved node id contributes for a given way. -/
def pointOf (nm : NodeMap) (w : Way) (n : ℕ) : OSMPoint :=
  match nm.lookup n with
  | some c => ⟨c.1, c.2, w.speed, some w.id⟩
  | none => dfltPoint

/-- The expected flattening of a chain whose stored node orders are aligned
head-to-tail. -/
def flatPtsW (nm : NodeMap) : List Way → List OSMPoint
  | [] => []
  | w :: rest =>
    buildPointsForWay nm w w.nodes ++
      rest.flatMap (fun w' => buildPointsForWay nm w' (w'.nodes.drop 1))

/-! #### Endpoint-index counting lemmas -/

theorem slotEmit_length (n y : ℕ) (l : List ℕ) :
    (l.flatMap (fun e => if e = n then [y] else [])).length = l.count n := by
  induction l with
  | nil => rfl
  | cons e es ih =>
    rw [List.flatMap_cons, List.length_append, ih, List.count_cons]
    by_cases he : e = n
    · rw [if_pos he, (by simpa using he : (e == n) = true)]
      simp [Nat.add_comm]
    · rw [if_neg he, (by simpa using he : (e == n) = false)]
      simp

theorem nodeWays_length (ways : List Way) (n : ℕ) :
    (nodeWays ways n).length = (endpointList ways).count n := by
  induction ways with
  | nil => rfl
  | cons w ws ih =>
    rw [nodeWays, List.flatMap_cons, List.length_append, endpointList,
      List.flatMap_cons, List.count_append]
    rw [nodeWays, endpointList] at ih
    rw [ih, slotEmit_length]

theorem nodeWays_mem_iff (ways : List Way) (n x : ℕ) :
    x ∈ nodeWays ways n ↔ ∃ w ∈ ways, w.id = x ∧ n ∈ endpointIds w := by
  rw [nodeWays]
  rw [List.mem_flatMap]
  constructor
  · rintro ⟨w, hw, hx⟩
    rw [List.mem_flatMap] at hx
    obtain ⟨e, he, hx⟩ := hx
    by_cases hen : e = n
    · rw [if_pos hen] at hx
      simp only [List.mem_singleton] at hx
      exact ⟨w, hw, hx.symm, hen ▸ he⟩
    · rw [if_neg hen] at hx
      exact absurd hx (by simp)
  · rintro ⟨w, hw, hid, hn⟩
    refine ⟨w, hw, ?_⟩
    rw [List.mem_flatMap]
    exact ⟨n, hn, by simp [hid]⟩

theorem findWay_id_of_mem (ways : List Way) (w : Way)
    (hids : (ways.map Way.id).Nodup) (hw : w ∈ ways) :
    findWay ways w.id = some w := by
  induction ways with
  | nil => exact absurd hw (by simp)
  | cons v vs ih =>
    rw [List.map_cons, List.nodup_cons] at hids
    rcases List.mem_cons.mp hw with hwv | hwvs
    · subst hwv
      rw [findWay, List.find?_cons_of_pos _ (by simp)]
    · rw [findWay]
      have hvw : ¬((fun u => u.id == w.id) v = true) := by
        simp only [beq_iff_eq]
        intro heq
        have : w.id ∈ vs.map Way.id := List.mem_map_of_mem Way.id hwvs
        rw [← heq] at this
        exact hids.1 this
      rw [@List.find?_cons_of_neg _ (fun u => u.id == w.id) v vs hvw]
      exact ih hids.2 hwvs

theorem eq_pair_of_mem_two (l : List ℕ) (x y : ℕ) (hlen : l.length = 2)
    (hx : x ∈ l) (hy : y ∈ l) (hxy : x ≠ y) : l = [x, y] ∨ l = [y, x] := by
  obtain ⟨a, b, rfl⟩ := List.length_eq_two.mp hlen
  simp only [List.mem_cons, List.not_mem_nil, or_false] at hx hy
  rcases hx with rfl | rfl
  · rcases hy with rfl | rfl
    · exact absurd rfl hxy
    · exact Or.inl rfl
  · rcases hy with rfl | rfl
    · exact Or.inr rfl
    · exact absurd rfl hxy

theorem eq_singleton_of_mem_one (l : List ℕ) (x : ℕ) (hlen : l.length = 1)
    (hx : x ∈ l) : l = [x] := by
  obtain ⟨a, rfl⟩ := List.length_eq_one.mp hlen
  simp only [List.mem_singleton] at hx
  rw [hx]

theorem filter_pair_eq (l : List ℕ) (x y : ℕ) (p : ℕ → Bool)
    (hpair : l = [x, y] ∨ l = [y, x]) (hpx : p x = false) (hpy : p y = true) :
    l.filter p = [y] := by
  rcases hpair with rfl | rfl
  · simp [List.filter, hpx, hpy]
  · simp [List.filter, hpx, hpy]

/-- A nonempty way registers its head node in its endpoint slots. -/
theorem head_mem_endpointIds (w : Way) (n : ℕ) (h : w.nodes.head? = some n) :
    n ∈ endpointIds w := by
  rw [endpointIds]
  cases hnodes : w.nodes with
  | nil => rw [hnodes] at h; exact Option.noConfusion h
  | cons a as =>
    rw [hnodes] at h
    simp only [List.head?_cons, Option.some_inj] at h
    subst h
    simp

/-- A nonempty way registers its last node in its endpoint slots. -/
theorem last_mem_endpointIds (w : Way) (n : ℕ) (h : w.nodes.getLast? = some n) :
    n ∈ endpointIds w := by
  rw [endpointIds]
  cases hnodes : w.nodes with
  | nil => rw [hnodes] at h; exact Option.noConfusion h
  | cons a as =>
    rw [hnodes] at h
    rw [List.getLast?_eq_getLast (a :: as) (List.cons_ne_nil a as)] at h
    simp only [Option.some_inj] at h
    subst h
    simp

/-! #### Greedy chain extension on an aligned simple chain -/

theorem contains_iff_mem (l : List ℕ) (x : ℕ) : l.contains x = true ↔ x ∈ l :=
  List.elem_iff

/-- A way with at least two nodes has a last node. -/
theorem nodesLast_exists (w : Way) (h : 2 ≤ w.nodes.length) :
    ∃ a, w.nodes.getLast? = some a := by
  have hne : w.nodes ≠ [] := by
    intro hn
    rw [hn] at h
    exact absurd h (by norm_num)
  exact ⟨w.nodes.getLast hne, List.getLast?_eq_getLast w.nodes hne⟩

/-- A way with at least two nodes has a head node. -/
theorem nodesHead_exists (w : Way) (h : 2 ≤ w.nodes.length) :
    ∃ a, w.nodes.head? = some a := by
  cases hn : w.nodes with
  | nil => rw [hn] at h; exact absurd h (by norm_num)
  | cons b bs => exact ⟨b, by simp [hn]⟩

/-- Forward extension walks exactly the remaining right part of the chain:
with `W = P ++ M ++ R`, the segment `M` walked so far (its ids exactly the
used set) and the tip at the junction after `M`, the loop appends precisely
the ids of `R` and uses up `M ++ R`. -/
theorem extendForward_walk (ways W : List Way)
    (hWperm : List.Perm W ways)
    (hids : (ways.map Way.id).Nodup)
    (hmin : ∀ w ∈ W, 2 ≤ w.nodes.length)
    (hlink : List.Chain' (fun u v => u.nodes.getLast? = v.nodes.head?) W)
    (hcut : ∀ j, j < W.length → 0 < j →
      ∀ n, (W.take j).getLast?.bind (fun w => w.nodes.getLast?) = some n →
        (endpointList ways).count n = 2)
    (hlast : ∀ n, W.getLast?.bind (fun w => w.nodes.getLast?) = some n →
        (endpointList ways).count n = 1) :
    ∀ (R M P : List Way), W = P ++ M ++ R → M ≠ [] →
    ∀ (used chain : List ℕ) (fuel : ℕ), R.length ≤ fuel →
    (∀ x, used.contains x = true ↔ x ∈ M.map Way.id) →
    ∃ upd tip,
      extendForward ways fuel used chain
        (M.getLast?.bind (fun w => w.nodes.getLast?)) =
        (upd, chain ++ R.map Way.id, tip) ∧
      ∀ x, upd.contains x = true ↔ x ∈ (M ++ R).map Way.id := by
  intro R
  induction R with
  | nil =>
    intro M P hW hM used chain fuel _ hused
    rw [List.append_nil] at hW
    obtain ⟨u, hu⟩ : ∃ u, M.getLast? = some u :=
      ⟨M.getLast hM, List.getLast?_eq_getLast M hM⟩
    have huM : u ∈ M := List.mem_of_mem_getLast? hu
    have huW : u ∈ W := by rw [hW]; exact List.mem_append_right P huM
    have huways : u ∈ ways := hWperm.subset huW
    obtain ⟨a, ha⟩ := nodesLast_exists u (hmin u huW)
    have htip : M.getLast?.bind (fun w => w.nodes.getLast?) = some a := by
      rw [hu]; exact ha
    have hcount : (endpointList ways).count a = 1 := by
      apply hlast
      rw [hW, List.getLast?_append_of_ne_nil P hM, hu]
      exact ha
    have hsingle : nodeWays ways a = [u.id] := by
      apply eq_singleton_of_mem_one
      · rw [nodeWays_length]; exact hcount
      · exact (nodeWays_mem_iff ways a u.id).mpr
          ⟨u, huways, rfl, last_mem_endpointIds u a ha⟩
    have hcontu : used.contains u.id = true :=
      (hused u.id).mpr (List.mem_map_of_mem Way.id huM)
    have hsc : stepConnections ways used (some a) = [] := by
      rw [stepConnections, hsingle, List.filter_cons, hcontu]
      rfl
    refine ⟨used, some a, ?_, ?_⟩
    · cases fuel with
      | zero => rw [htip]; simp [extendForward]
      | succ f =>
        rw [htip]
        simp only [extendForward, hsc, List.map_nil, List.append_nil]
    · intro x
      rw [List.append_nil]
      exact hused x
  | cons r R2 ih =>
    intro M P hW hM used chain fuel hfuel hused
    cases fuel with
    | zero => exact absurd hfuel (by simp)
    | succ f =>
      have hW2 : W = (P ++ M) ++ (r :: R2) := hW
      have hWassoc : W = P ++ (M ++ [r]) ++ R2 := by
        rw [hW, List.append_cons (P ++ M) r R2, List.append_assoc P M [r]]
      obtain ⟨u, hu⟩ : ∃ u, M.getLast? = some u :=
        ⟨M.getLast hM, List.getLast?_eq_getLast M hM⟩
      have huM : u ∈ M := List.mem_of_mem_getLast? hu
      have huW : u ∈ W := by
        rw [hW2]
        exact List.mem_append_left _ (List.mem_append_right P huM)
      have huways : u ∈ ways := hWperm.subset huW
      have hrW : r ∈ W := by
        rw [hW2]
        exact List.mem_append_right _ (List.mem_cons_self r R2)
      have hrways : r ∈ ways := hWperm.subset hrW
      obtain ⟨a, ha⟩ := nodesLast_exists u (hmin u huW)
      have htip : M.getLast?.bind (fun w => w.nodes.getLast?) = some a := by
        rw [hu]; exact ha
      have hPMlast : (P ++ M).getLast? = some u := by
        rw [List.getLast?_append_of_ne_nil P hM]; exact hu
      have hrhead : r.nodes.head? = some a := by
        have hsplit := (List.chain'_append.mp (hW2 ▸ hlink)).2.2
        have := hsplit u (by rw [hPMlast]; rfl) r rfl
        rw [← this]; exact ha
      have hWidsnodup : (W.map Way.id).Nodup :=
        ((hWperm.map Way.id).nodup_iff).mpr hids
      have hdisjoint : List.Disjoint ((P ++ M).map Way.id) (((r :: R2)).map Way.id) := by
        rw [hW2, List.map_append, List.nodup_append] at hWidsnodup
        exact hWidsnodup.2.2
      have hdisj : u.id ≠ r.id := by
        intro heq
        exact hdisjoint
          (List.mem_map_of_mem Way.id (List.mem_append_right P huM))
          (heq ▸ List.mem_map_of_mem Way.id (List.mem_cons_self r R2))
      have hcount : (endpointList ways).count a = 2 := by
        apply hcut (P ++ M).length
        · rw [hW2]
          simp only [List.length_append, List.length_cons]
          omega
        · simp only [List.length_append]
          have : 0 < M.length := List.length_pos.mpr hM
          omega
        · rw [hW2, List.take_left, hPMlast]
          exact ha
      have hpair : nodeWays ways a = [u.id, r.id] ∨ nodeWays ways a = [r.id, u.id] := by
        apply eq_pair_of_mem_two
        · rw [nodeWays_length]; exact hcount
        · exact (nodeWays_mem_iff ways a u.id).mpr
            ⟨u, huways, rfl, last_mem_endpointIds u a ha⟩
        · exact (nodeWays_mem_iff ways a r.id).mpr
            ⟨r, hrways, rfl, head_mem_endpointIds r a hrhead⟩
        · exact hdisj
      have hcontu : used.contains u.id = true :=
        (hused u.id).mpr (List.mem_map_of_mem Way.id huM)
      have hcontr : used.contains r.id = false := by
        by_contra hcr
        have hmem : r.id ∈ M.map Way.id :=
          (hused r.id).mp (Bool.of_not_eq_false hcr)
        have h1 : r.id ∈ (P ++ M).map Way.id := by
          rw [List.map_append]
          exact List.mem_append_right _ hmem
        exact hdisjoint h1 (List.mem_map_of_mem Way.id (List.mem_cons_self r R2))
      have hfilter : (nodeWays ways a).filter (fun w => !used.contains w) = [r.id] := by
        apply filter_pair_eq _ u.id r.id _ hpair
        · rw [hcontu]; rfl
        · rw [hcontr]; rfl
      have hsc : stepConnections ways used (some a) = [r.id] := by
        rw [stepConnections, hfilter]
      have hfindr : findWay ways r.id = some r := findWay_id_of_mem ways r hids hrways
      have hused2 : ∀ x, (r.id :: used).contains x = true ↔ x ∈ (M ++ [r]).map Way.id := by
        intro x
        rw [contains_iff_mem, List.mem_cons, List.map_append]
        constructor
        · rintro (rfl | hx)
          · exact List.mem_append_right _ (by simp)
          · exact List.mem_append_left _ ((hused x).mp ((contains_iff_mem used x).mpr hx))
        · intro hx
          rcases List.mem_append.mp hx with hx | hx
          · exact Or.inr ((contains_iff_mem used x).mp ((hused x).mpr hx))
          · simp only [List.map_cons, List.map_nil, List.mem_singleton] at hx
            exact Or.inl hx
      have hMr : (M ++ [r]) ≠ [] := by simp
      have htip2 : (M ++ [r]).getLast?.bind (fun w => w.nodes.getLast?) =
          r.nodes.getLast? := by
        rw [List.getLast?_append_of_ne_nil M (by simp : ([r] : List Way) ≠ [])]
        rfl
      obtain ⟨upd, tip2, heq, hupd⟩ := ih (M ++ [r]) P hWassoc hMr (r.id :: used)
        (chain ++ [r.id]) f (by simpa using hfuel) hused2
      rw [htip2] at heq
      refine ⟨upd, tip2, ?_, ?_⟩
      · rw [htip]
        simp only [extendForward, hsc, hfindr]
        rw [if_pos hrhead, heq]
        simp [List.append_assoc]
      · intro x
        rw [List.append_cons M r R2]
        exact hupd x

/-- Backward extension walks exactly the remaining left part of the chain:
with `W = L ++ M ++ Q`, the segment `M` walked so far (its ids exactly the
used set) and the tip at the junction before `M`, the loop prepends precisely
the ids of `L` and uses up `L ++ M`. -/
theorem extendBackward_walk (ways W : List Way)
    (hWperm : List.Perm W ways)
    (hids : (ways.map Way.id).Nodup)
    (hmin : ∀ w ∈ W, 2 ≤ w.nodes.length)
    (hlink : List.Chain' (fun u v => u.nodes.getLast? = v.nodes.head?) W)
    (hcut : ∀ j, j < W.length → 0 < j →
      ∀ n, (W.take j).getLast?.bind (fun w => w.nodes.getLast?) = some n →
        (endpointList ways).count n = 2)
    (hfirst : ∀ n, W.head?.bind (fun w => w.nodes.head?) = some n →
        (endpointList ways).count n = 1) :
    ∀ (L M Q : List Way), W = L ++ M ++ Q → M ≠ [] →
    ∀ (used chain : List ℕ) (fuel : ℕ), L.length ≤ fuel →
    (∀ x, used.contains x = true ↔ x ∈ M.map Way.id) →
    ∃ upd tip,
      extendBackward ways fuel used chain
        (M.head?.bind (fun w => w.nodes.head?)) =
        (upd, L.map Way.id ++ chain, tip) ∧
      ∀ x, upd.contains x = true ↔ x ∈ (L ++ M).map Way.id := by
  intro L
  induction L using List.reverseRecOn with
  | nil =>
    intro M Q hW hM used chain fuel _ hused
    rw [List.nil_append] at hW
    obtain ⟨m0, M', hMeq⟩ := List.exists_cons_of_ne_nil hM
    have hm0head : M.head? = some m0 := by rw [hMeq]; rfl
    have hm0M : m0 ∈ M := by rw [hMeq]; exact List.mem_cons_self m0 M'
    have hm0W : m0 ∈ W := by rw [hW]; exact List.mem_append_left Q hm0M
    have hm0ways : m0 ∈ ways := hWperm.subset hm0W
    obtain ⟨a, ha⟩ := nodesHead_exists m0 (hmin m0 hm0W)
    have htip : M.head?.bind (fun w => w.nodes.head?) = some a := by
      rw [hm0head]; exact ha
    have hcount : (endpointList ways).count a = 1 := by
      apply hfirst
      rw [hW, List.head?_append_of_ne_nil M hM, hm0head]
      exact ha
    have hsingle : nodeWays ways a = [m0.id] := by
      apply eq_singleton_of_mem_one
      · rw [nodeWays_length]; exact hcount
      · exact (nodeWays_mem_iff ways a m0.id).mpr
          ⟨m0, hm0ways, rfl, head_mem_endpointIds m0 a ha⟩
    have hcontm : used.contains m0.id = true :=
      (hused m0.id).mpr (List.mem_map_of_mem Way.id hm0M)
    have hsc : stepConnections ways used (some a) = [] := by
      rw [stepConnections, hsingle, List.filter_cons, hcontm]
      rfl
    refine ⟨used, some a, ?_, ?_⟩
    · cases fuel with
      | zero => rw [htip]; simp [extendBackward]
      | succ f =>
        rw [htip]
        simp only [extendBackward, hsc, List.map_nil, List.nil_append]
    · intro x
      rw [List.nil_append]
      exact hused x
  | append_singleton L2 u ih =>
    intro M Q hW hM used chain fuel hfuel hused
    cases fuel with
    | zero =>
      exfalso
      rw [List.length_append] at hfuel
      simp at hfuel
    | succ f =>
      have hW2 : W = (L2 ++ [u] ++ M) ++ Q := hW
      have hWright : W = (L2 ++ [u]) ++ (M ++ Q) := by
        rw [hW, List.append_assoc (L2 ++ [u]) M Q]
      have hWassoc : W = L2 ++ (u :: M) ++ Q := by
        rw [hW, List.append_assoc L2 [u] M]
        rfl
      obtain ⟨m0, M', hMeq⟩ := List.exists_cons_of_ne_nil hM
      have hm0head : M.head? = some m0 := by rw [hMeq]; rfl
      have hm0M : m0 ∈ M := by rw [hMeq]; exact List.mem_cons_self m0 M'
      have hm0W : m0 ∈ W := by
        rw [hWright]
        exact List.mem_append_right _ (List.mem_append_left Q hm0M)
      have hm0ways : m0 ∈ ways := hWperm.subset hm0W
      have huL : u ∈ L2 ++ [u] := List.mem_append_right L2 (by simp)
      have huW : u ∈ W := by
        rw [hWright]
        exact List.mem_append_left _ huL
      have huways : u ∈ ways := hWperm.subset huW
      obtain ⟨a, ha⟩ := nodesHead_exists m0 (hmin m0 hm0W)
      have htip : M.head?.bind (fun w => w.nodes.head?) = some a := by
        rw [hm0head]; exact ha
      have hLlast : (L2 ++ [u]).getLast? = some u := by
        rw [List.getLast?_append_of_ne_nil L2 (by simp : ([u] : List Way) ≠ [])]
        rfl
      have hMQhead : (M ++ Q).head? = some m0 := by
        rw [List.head?_append_of_ne_nil M hM]
        exact hm0head
      have hulast : u.nodes.getLast? = some a := by
        have hsplit := (List.chain'_append.mp (hWright ▸ hlink)).2.2
        have := hsplit u (by rw [hLlast]; rfl) m0 (by rw [hMQhead]; rfl)
        rw [this]; exact ha
      have hWidsnodup : (W.map Way.id).Nodup :=
        ((hWperm.map Way.id).nodup_iff).mpr hids
      have hdisjoint : List.Disjoint ((L2 ++ [u]).map Way.id) ((M ++ Q).map Way.id) := by
        rw [hWright, List.map_append, List.nodup_append] at hWidsnodup
        exact hWidsnodup.2.2
      have hdisj : m0.id ≠ u.id := by
        intro heq
        exact hdisjoint (List.mem_map_of_mem Way.id huL)
          (heq ▸ List.mem_map_of_mem Way.id (List.mem_append_left Q hm0M))
      have hcount : (endpointList ways).count a = 2 := by
        apply hcut (L2 ++ [u]).length
        · rw [hWright]
          simp only [List.length_append, List.length_cons]
          have : 0 < M.length := List.length_pos.mpr hM
          omega
        · simp only [List.length_append, List.length_cons, List.length_nil]
          omega
        · rw [hWright, List.take_left, hLlast]
          exact hulast
      have hpair : nodeWays ways a = [u.id, m0.id] ∨ nodeWays ways a = [m0.id, u.id] := by
        apply eq_pair_of_mem_two
        · rw [nodeWays_length]; exact hcount
        · exact (nodeWays_mem_iff ways a u.id).mpr
            ⟨u, huways, rfl, last_mem_endpointIds u a hulast⟩
        · exact (nodeWays_mem_iff ways a m0.id).mpr
            ⟨m0, hm0ways, rfl, head_mem_endpointIds m0 a ha⟩
        · exact fun h => hdisj h.symm
      have hcontm : used.contains m0.id = true :=
        (hused m0.id).mpr (List.mem_map_of_mem Way.id hm0M)
      have hcontu : used.contains u.id = false := by
        by_contra hcu
        have hmem : u.id ∈ M.map Way.id :=
          (hused u.id).mp (Bool.of_not_eq_false hcu)
        have h1 : u.id ∈ (M ++ Q).map Way.id := by
          rw [List.map_append]
          exact List.mem_append_left _ hmem
        exact hdisjoint (List.mem_map_of_mem Way.id huL) h1
      have hfilter : (nodeWays ways a).filter (fun w => !used.contains w) = [u.id] := by
        rcases hpair with hp | hp
        · apply filter_pair_eq _ m0.id u.id _ (Or.inr hp)
          · rw [hcontm]; rfl
          · rw [hcontu]; rfl
        · apply filter_pair_eq _ m0.id u.id _ (Or.inl hp)
          · rw [hcontm]; rfl
          · rw [hcontu]; rfl
      have hsc : stepConnections ways used (some a) = [u.id] := by
        rw [stepConnections, hfilter]
      have hfindu : findWay ways u.id = some u := findWay_id_of_mem ways u hids huways
      have hused2 : ∀ x, (u.id :: used).contains x = true ↔ x ∈ (u :: M).map Way.id := by
        intro x
        rw [contains_iff_mem, List.mem_cons, List.map_cons, List.mem_cons]
        constructor
        · rintro (rfl | hx)
          · exact Or.inl rfl
          · exact Or.inr ((hused x).mp ((contains_iff_mem used x).mpr hx))
        · rintro (rfl | hx)
          · exact Or.inl rfl
          · exact Or.inr ((contains_iff_mem used x).mp ((hused x).mpr hx))
      have htip2 : ((u :: M).head?.bind (fun w => w.nodes.head?)) = u.nodes.head? := rfl
      obtain ⟨upd, tip2, heq, hupd⟩ := ih (u :: M) Q hWassoc (by simp) (u.id :: used)
        (u.id :: chain) f (by
          rw [List.length_append] at hfuel
          simpa using hfuel) hused2
      rw [htip2] at heq
      refine ⟨upd, tip2, ?_, ?_⟩
      · rw [htip]
        simp only [extendBackward, hsc, hfindu]
        rw [if_pos hulast, heq]
        simp [List.append_assoc]
      · intro x
        rw [show (L2 ++ [u]) ++ M = L2 ++ (u :: M) by
          rw [List.append_assoc]; rfl]
        exact hupd x

theorem foldl_buildChainsStep_fixed (ways : List Way)
    (st : List (List ℕ) × List ℕ) :
    ∀ l : List Way, (∀ w ∈ l, st.2.contains w.id = true) →
      l.foldl (buildChainsStep ways) st = st := by
  intro l
  induction l with
  | nil => intro _; rfl
  | cons w rest ih =>
    intro hall
    rw [List.foldl_cons]
    have hstep : buildChainsStep ways st w = st := by
      rw [buildChainsStep, if_pos (hall w (List.mem_cons_self w rest))]
    rw [hstep]
    exact ih (fun v hv => hall v (List.mem_cons_of_mem w hv))

/-- On a fragment set forming one aligned simple chain `W`, the greedy builder
produces exactly one chain: the ids of `W` in chain order. -/
theorem buildChains_aligned (ways W : List Way)
    (hWperm : List.Perm W ways)
    (hids : (ways.map Way.id).Nodup)
    (hmin : ∀ w ∈ W, 2 ≤ w.nodes.length)
    (hlink : List.Chain' (fun u v => u.nodes.getLast? = v.nodes.head?) W)
    (hcut : ∀ j, j < W.length → 0 < j →
      ∀ n, (W.take j).getLast?.bind (fun w => w.nodes.getLast?) = some n →
        (endpointList ways).count n = 2)
    (hfirst : ∀ n, W.head?.bind (fun w => w.nodes.head?) = some n →
        (endpointList ways).count n = 1)
    (hlast : ∀ n, W.getLast?.bind (fun w => w.nodes.getLast?) = some n →
        (endpointList ways).count n = 1)
    (hne : ways ≠ []) :
    buildChains ways = [W.map Way.id] := by
  obtain ⟨w0, rest, hways⟩ := List.exists_cons_of_ne_nil hne
  have hw0ways : w0 ∈ ways := by rw [hways]; exact List.mem_cons_self w0 rest
  have hw0W : w0 ∈ W := (hWperm.mem_iff).mpr hw0ways
  obtain ⟨P, R, hsplit⟩ := List.append_of_mem hw0W
  have hsplit2 : W = (P ++ [w0]) ++ R := by
    rw [hsplit, List.append_cons P w0 R]
  have hlenW : W.length = ways.length := hWperm.length_eq
  have hlensplit : W.length = P.length + 1 + R.length := by
    rw [hsplit]
    simp [List.length_append]
    omega
  -- forward pass from the seed
  obtain ⟨used1, tipF, heqF, husedF⟩ := extendForward_walk ways W hWperm hids hmin
    hlink hcut hlast R [w0] P hsplit2 (by simp) [w0.id] [w0.id] ways.length
    (by omega)
    (by
      intro x
      rw [contains_iff_mem]
      simp)
  have htipF : ([w0] : List Way).getLast?.bind (fun w => w.nodes.getLast?) =
      w0.nodes.getLast? := rfl
  rw [htipF] at heqF
  -- backward pass over the left part
  have hsplit3 : W = P ++ (w0 :: R) ++ [] := by
    rw [List.append_nil]
    exact hsplit
  have husedF2 : ∀ x, used1.contains x = true ↔ x ∈ (w0 :: R).map Way.id := husedF
  obtain ⟨used2, tipB, heqB, husedB⟩ := extendBackward_walk ways W hWperm hids hmin
    hlink hcut hfirst P (w0 :: R) [] hsplit3 (by simp) used1
    ([w0.id] ++ R.map Way.id) ways.length (by omega) husedF2
  have htipB : ((w0 :: R) : List Way).head?.bind (fun w => w.nodes.head?) =
      w0.nodes.head? := rfl
  rw [htipB] at heqB
  -- assemble the fold
  have hstep1 : buildChainsStep ways ([], []) w0 =
      ([P.map Way.id ++ ([w0.id] ++ R.map Way.id)], used2) := by
    rw [buildChainsStep]
    rw [if_neg (by simp)]
    simp only [heqF, heqB]
    rfl
  have hfold : ways.foldl (buildChainsStep ways) ([], []) =
      (w0 :: rest).foldl (buildChainsStep ways) ([], []) :=
    congrArg (fun l => l.foldl (buildChainsStep ways) ([], [])) hways
  rw [buildChains, hfold, List.foldl_cons, hstep1]
  have hWid : W.map Way.id = P.map Way.id ++ ([w0.id] ++ R.map Way.id) := by
    rw [hsplit, List.map_append, List.map_cons]
    rfl
  have hfixed : rest.foldl (buildChainsStep ways)
      ([P.map Way.id ++ ([w0.id] ++ R.map Way.id)], used2) =
      ([P.map Way.id ++ ([w0.id] ++ R.map Way.id)], used2) := by
    apply foldl_buildChainsStep_fixed
    intro w hw
    show used2.contains w.id = true
    apply (husedB w.id).mpr
    rw [← hsplit]
    apply List.mem_map_of_mem
    exact (hWperm.mem_iff).mpr (by rw [hways]; exact List.mem_cons_of_mem w0 hw)
  rw [hfixed, hWid]

/-! #### Flattening an aligned chain -/

theorem buildPoints_eq_map (nm : NodeMap) (w : Way) (ns : List ℕ)
    (hres : ∀ n ∈ ns, (nm.lookup n).isSome = true) :
    buildPointsForWay nm w ns = ns.map (pointOf nm w) := by
  induction ns with
  | nil => rfl
  | cons n ns' ih =>
    obtain ⟨c, hc⟩ := Option.isSome_iff_exists.mp (hres n (List.mem_cons_self n ns'))
    rw [buildPointsForWay, List.filterMap_cons, List.map_cons]
    rw [buildPointsForWay] at ih
    rw [hc]
    simp only [Option.map_some']
    rw [ih (fun m hm => hres m (List.mem_cons_of_mem n hm))]
    rw [pointOf, hc]

theorem pointOf_coords (nm : NodeMap) (w : Way) (n : ℕ) (c : ℚ × ℚ)
    (hc : nm.lookup n = some c) :
    (pointOf nm w n).lat = c.1 ∧ (pointOf nm w n).lon = c.2 := by
  rw [pointOf, hc]
  exact ⟨rfl, rfl⟩

/-- Flattening loop over an aligned tail: each way matches the running tip at
its stored head, so its nodes after the junction are appended. -/
theorem flattenGo_aligned (ways : List Way) (nm : NodeMap)
    (hids : (ways.map Way.id).Nodup)
    (hres : NodesResolve ways nm) :
    ∀ (R : List Way) (prev : Way) (acc : List OSMPoint),
    (∀ w ∈ R, w ∈ ways) →
    (∀ w ∈ R, 2 ≤ w.nodes.length) →
    List.Chain' (fun u v => u.nodes.getLast? = v.nodes.head?) (prev :: R) →
    (∃ a c p, prev.nodes.getLast? = some a ∧ nm.lookup a = some c ∧
      acc.getLast? = some p ∧ p.lat = c.1 ∧ p.lon = c.2) →
    flattenGo ways nm (R.map Way.id) acc =
      some (acc ++ R.flatMap (fun v => buildPointsForWay nm v (v.nodes.drop 1))) := by
  intro R
  induction R with
  | nil =>
    intro prev acc _ _ _ _
    simp [flattenGo]
  | cons r R' ih =>
    intro prev acc hmem hmin hlink hinv
    obtain ⟨a, c, p, hpa, hca, hlastp, hplat, hplon⟩ := hinv
    have hrways : r ∈ ways := hmem r (List.mem_cons_self r R')
    have hfind : findWay ways r.id = some r := findWay_id_of_mem ways r hids hrways
    have hrhead : r.nodes.head? = some a := by
      rcases hlink with _ | ⟨hrel, _⟩
      rw [← hrel]
      exact hpa
    have hsn : r.nodes.head?.bind (fun n => nm.lookup n) = some c := by
      rw [hrhead]
      exact hca
    rw [List.map_cons, flattenGo]
    simp only [hfind, hlastp, hsn]
    rw [if_pos ⟨hplat, hplon⟩]
    have hminr : 2 ≤ r.nodes.length := hmin r (List.mem_cons_self r R')
    obtain ⟨a', ha'⟩ := nodesLast_exists r hminr
    have ha'mem : a' ∈ r.nodes := List.mem_of_mem_getLast? ha'
    obtain ⟨c', hc'⟩ := Option.isSome_iff_exists.mp (hres r hrways a' ha'mem)
    have hdropres : ∀ n ∈ r.nodes.drop 1, (nm.lookup n).isSome = true :=
      fun n hn => hres r hrways n (List.mem_of_mem_drop hn)
    have hdropne : r.nodes.drop 1 ≠ [] := by
      intro h
      have := congrArg List.length h
      rw [List.length_drop] at this
      simp at this
      omega
    have hdroplast : (r.nodes.drop 1).getLast? = some a' := by
      cases hns : r.nodes with
      | nil => rw [hns] at ha'; exact Option.noConfusion ha'
      | cons n0 nrest =>
        have hnrest : nrest ≠ [] := by
          intro h
          rw [hns, h] at hminr
          exact absurd hminr (by norm_num)
        rw [hns] at ha'
        rw [List.drop_one, List.tail_cons]
        cases nrest with
        | nil => exact absurd rfl hnrest
        | cons m ms => rw [← ha', List.getLast?_cons_cons]
    have hacc' : (acc ++ buildPointsForWay nm r (r.nodes.drop 1)).getLast? =
        some (pointOf nm r a') := by
      rw [buildPoints_eq_map nm r _ hdropres,
        List.getLast?_append_of_ne_nil acc (by
          intro h
          exact hdropne (List.map_eq_nil_iff.mp h)),
        List.getLast?_map, hdroplast]
      rfl
    rw [ih r (acc ++ buildPointsForWay nm r (r.nodes.drop 1))
      (fun w hw => hmem w (List.mem_cons_of_mem r hw))
      (fun w hw => hmin w (List.mem_cons_of_mem r hw))
      (by
        rcases hlink with _ | ⟨_, htail⟩
        exact htail)
      ⟨a', c', pointOf nm r a', ha', hc', hacc',
        (pointOf_coords nm r a' c' hc').1, (pointOf_coords nm r a' c' hc').2⟩]
    rw [List.flatMap_cons, List.append_assoc]

/-- Flattening the id list of an aligned chain reproduces the expected point
list: the first way's nodes in full, each later way contributing its nodes
after the shared junction. -/
theorem flattenChain_aligned (ways : List Way) (nm : NodeMap) (W : List Way)
    (hids : (ways.map Way.id).Nodup)
    (hmem : ∀ w ∈ W, w ∈ ways)
    (hmin : ∀ w ∈ W, 2 ≤ w.nodes.length)
    (hres : NodesResolve ways nm)
    (hlink : List.Chain' (fun u v => u.nodes.getLast? = v.nodes.head?) W) :
    flattenChain ways nm (W.map Way.id) = some (flatPtsW nm W) := by
  cases W with
  | nil => rfl
  | cons w0 R =>
    have hw0 : w0 ∈ ways := hmem w0 (List.mem_cons_self w0 R)
    have hfind : findWay ways w0.id = some w0 := findWay_id_of_mem ways w0 hids hw0
    rw [List.map_cons, flattenChain]
    simp only [hfind]
    obtain ⟨a, ha⟩ := nodesLast_exists w0 (hmin w0 (List.mem_cons_self w0 R))
    obtain ⟨c, hc⟩ := Option.isSome_iff_exists.mp
      (hres w0 hw0 a (List.mem_of_mem_getLast? ha))
    have hres0 : ∀ n ∈ w0.nodes, (nm.lookup n).isSome = true :=
      fun n hn => hres w0 hw0 n hn
    have hne0 : w0.nodes ≠ [] := by
      intro h
      rw [h] at ha
      exact Option.noConfusion ha
    have hacc : (buildPointsForWay nm w0 w0.nodes).getLast? =
        some (pointOf nm w0 a) := by
      rw [buildPoints_eq_map nm w0 _ hres0, List.getLast?_map, ha]
      rfl
    rw [flattenGo_aligned ways nm hids hres R w0
      (buildPointsForWay nm w0 w0.nodes)
      (fun w hw => hmem w (List.mem_cons_of_mem w0 hw))
      (fun w hw => hmin w (List.mem_cons_of_mem w0 hw))
      hlink
      ⟨a, c, pointOf nm w0 a, ha, hc, hacc,
        (pointOf_coords nm w0 a c hc).1, (pointOf_coords nm w0 a c hc).2⟩]
    rw [flatPtsW]

/-- Under full node resolution the emitted point count equals the node-id
count. -/
theorem buildPoints_length (nm : NodeMap) (w : Way) (ns : List ℕ)
    (hres : ∀ n ∈ ns, (nm.lookup n).isSome = true) :
    (buildPointsForWay nm w ns).length = ns.length := by
  rw [buildPoints_eq_map nm w ns hres, List.length_map]

/-- Point count of an aligned flattening: the node counts summed, minus one
shared junction per joint. -/
theorem flatPtsW_length (nm : NodeMap) (W : List Way)
    (hres : ∀ w ∈ W, ∀ n ∈ w.nodes, (nm.lookup n).isSome = true)
    (hmin : ∀ w ∈ W, 1 ≤ w.nodes.length) (hW : W ≠ []) :
    (flatPtsW nm W).length + W.length =
      (W.map (fun w => w.nodes.length)).sum + 1 := by
  cases W with
  | nil => exact absurd rfl hW
  | cons w0 R =>
    have htail : ∀ R' : List Way, (∀ w ∈ R', w ∈ R) →
        (R'.flatMap (fun v => buildPointsForWay nm v (v.nodes.drop 1))).length
          + R'.length = (R'.map (fun w => w.nodes.length)).sum := by
      intro R'
      induction R' with
      | nil => intro _; rfl
      | cons r rs ih =>
        intro hsub
        have hr : r ∈ R := hsub r (List.mem_cons_self r rs)
        have hrmem : r ∈ w0 :: R := List.mem_cons_of_mem w0 hr
        rw [List.flatMap_cons, List.length_append,
          buildPoints_length nm r _ (fun n hn =>
            hres r hrmem n (List.mem_of_mem_drop hn)),
          List.length_drop, List.map_cons, List.sum_cons, List.length_cons]
        have h1 := hmin r hrmem
        have h2 := ih (fun w hw => hsub w (List.mem_cons_of_mem r hw))
        omega
    rw [flatPtsW, List.length_append,
      buildPoints_length nm w0 _ (fun n hn =>
        hres w0 (List.mem_cons_self w0 R) n hn),
      List.map_cons, List.sum_cons, List.length_cons,
      Nat.add_assoc]
    have h3 := htail R (fun w hw => hw)
    omega

/-! #### No duplicate consecutive coordinates, for arbitrary chains -/

/-- Two assembled points carry the same coordinates. -/
def CoordEq (p q : OSMPoint) : Prop := p.lat = q.lat ∧ p.lon = q.lon

/-- No two consecutive points of the list share their coordinates. -/
def CoordChain (l : List OSMPoint) : Prop :=
  List.Chain' (fun p q => ¬ CoordEq p q) l

/-- The points of a duplicate-free, fully resolved node-id list are pairwise
consecutive-distinct in coordinates. -/
theorem coordChain_map_pointOf (ways : List Way) (nm : NodeMap)
    (hinj : CoordInj ways nm) (w : Way) :
    ∀ ns : List ℕ, ns.Nodup → (∀ n ∈ ns, n ∈ allNodeIds ways) →
    (∀ n ∈ ns, (nm.lookup n).isSome = true) →
    CoordChain (ns.map (pointOf nm w)) := by
  intro ns
  induction ns with
  | nil => intro _ _ _; exact List.chain'_nil
  | cons n rest ih =>
    intro hnd hmem hres
    rw [List.map_cons]
    cases rest with
    | nil => simp [CoordChain]
    | cons m ms =>
      rw [List.map_cons, CoordChain, List.chain'_cons]
      constructor
      · intro hco
        obtain ⟨cn, hcn⟩ := Option.isSome_iff_exists.mp
          (hres n (List.mem_cons_self n (m :: ms)))
        obtain ⟨cm, hcm⟩ := Option.isSome_iff_exists.mp
          (hres m (List.mem_cons_of_mem n (List.mem_cons_self m ms)))
        have h1 := pointOf_coords nm w n cn hcn
        have h2 := pointOf_coords nm w m cm hcm
        have hcc : cn = cm := by
          rcases hco with ⟨hla, hlo⟩
          exact Prod.ext (by rw [← h1.1, ← h2.1, hla]) (by rw [← h1.2, ← h2.2, hlo])
        have hnm2 := hinj n (hmem n (List.mem_cons_self n (m :: ms)))
          m (hmem m (List.mem_cons_of_mem n (List.mem_cons_self m ms)))
          (by rw [hcn, hcm, hcc])
        rw [List.nodup_cons] at hnd
        exact hnd.1 (hnm2 ▸ List.mem_cons_self m ms)
      · exact ih (List.nodup_cons.mp hnd).2
          (fun x hx => hmem x (List.mem_cons_of_mem n hx))
          (fun x hx => hres x (List.mem_cons_of_mem n hx))

/-- Whatever chain of known way ids the flatten loop is given, it succeeds
and never emits two consecutive points with equal coordinates: each branch's
first appended point differs from the running tip (branch choice is by that
very coordinate comparison), and within a fragment distinct nodes have
distinct coordinates. -/
theorem flattenGo_coordChain (ways : List Way) (nm : NodeMap)
    (hres : NodesResolve ways nm) (hinj : CoordInj ways nm)
    (hw : ∀ w ∈ ways, 2 ≤ w.nodes.length ∧ w.nodes.Nodup) :
    ∀ (chain : List ℕ) (acc : List OSMPoint),
    (∀ x ∈ chain, ∃ w ∈ ways, w.id = x) →
    CoordChain acc →
    ∃ out, flattenGo ways nm chain acc = some out ∧ CoordChain out := by
  intro chain
  induction chain with
  | nil => intro acc _ hacc; exact ⟨acc, rfl, hacc⟩
  | cons wid rest ih =>
    intro acc hchain hacc
    obtain ⟨w1, hw1mem, hw1id⟩ := hchain wid (List.mem_cons_self wid rest)
    have hfind : ∃ cw, findWay ways wid = some cw := by
      cases hfw : findWay ways wid with
      | some cw => exact ⟨cw, rfl⟩
      | none =>
        rw [findWay, List.find?_eq_none] at hfw
        exact absurd (by simp [hw1id]) (hfw w1 hw1mem)
    obtain ⟨cw, hcw⟩ := hfind
    have hcwmem : cw ∈ ways := List.mem_of_find?_eq_some hcw
    have hcwlen : 2 ≤ cw.nodes.length := (hw cw hcwmem).1
    have hcwnd : cw.nodes.Nodup := (hw cw hcwmem).2
    have hcwres : ∀ n ∈ cw.nodes, (nm.lookup n).isSome = true :=
      fun n hn => hres cw hcwmem n hn
    have hcwall : ∀ n ∈ cw.nodes, n ∈ allNodeIds ways :=
      fun n hn => List.mem_flatMap.mpr ⟨cw, hcwmem, hn⟩
    have hrest : ∀ x ∈ rest, ∃ w ∈ ways, w.id = x :=
      fun x hx => hchain x (List.mem_cons_of_mem wid hx)
    rw [flattenGo]
    simp only [hcw]
    cases hlast : acc.getLast? with
    | none => exact ⟨acc, rfl, hacc⟩
    | some lastP =>
      obtain ⟨n0, ns', hns⟩ : ∃ n0 ns', cw.nodes = n0 :: ns' := by
        cases hn : cw.nodes with
        | nil => rw [hn] at hcwlen; exact absurd hcwlen (by norm_num)
        | cons a as => exact ⟨a, as, rfl⟩
      obtain ⟨c0, hc0⟩ := Option.isSome_iff_exists.mp
        (hcwres n0 (hns ▸ List.mem_cons_self n0 ns'))
      have hsn : cw.nodes.head?.bind (fun n => nm.lookup n) = some c0 := by
        rw [hns]
        simpa using hc0
      simp only [hsn]
      by_cases hb1 : lastP.lat = c0.1 ∧ lastP.lon = c0.2
      · rw [if_pos hb1]
        have hblock : buildPointsForWay nm cw (cw.nodes.drop 1) =
            (cw.nodes.drop 1).map (pointOf nm cw) :=
          buildPoints_eq_map nm cw _
            (fun n hn => hcwres n (List.mem_of_mem_drop hn))
        have hbchain : CoordChain ((cw.nodes.drop 1).map (pointOf nm cw)) :=
          coordChain_map_pointOf ways nm hinj cw _
            (hcwnd.sublist (List.drop_sublist 1 cw.nodes))
            (fun n hn => hcwall n (List.mem_of_mem_drop hn))
            (fun n hn => hcwres n (List.mem_of_mem_drop hn))
        have hbound : ∀ y ∈ ((cw.nodes.drop 1).map (pointOf nm cw)).head?,
            ¬ CoordEq lastP y := by
          intro y hy hco
          rw [List.head?_map] at hy
          rw [hns, List.drop_one, List.tail_cons] at hy
          cases hns' : ns' with
          | nil => rw [hns'] at hy; exact Option.noConfusion hy
          | cons m ms =>
            rw [hns'] at hy
            simp only [List.head?_cons, Option.map_some', Option.mem_def,
              Option.some_inj] at hy
            obtain ⟨cm, hcm⟩ := Option.isSome_iff_exists.mp
              (hcwres m (by rw [hns, hns']; exact
                List.mem_cons_of_mem n0 (List.mem_cons_self m ms)))
            have h2 := pointOf_coords nm cw m cm hcm
            have hcc : c0 = cm := by
              rcases hco with ⟨hla, hlo⟩
              rw [← hy] at hla hlo
              exact Prod.ext (by rw [← h2.1, ← hla, hb1.1])
                (by rw [← h2.2, ← hlo, hb1.2])
            have hn0m := hinj n0 (hcwall n0 (hns ▸ List.mem_cons_self n0 ns'))
              m (hcwall m (by rw [hns, hns']; exact
                List.mem_cons_of_mem n0 (List.mem_cons_self m ms)))
              (by rw [hc0, hcm, hcc])
            rw [hns, hns'] at hcwnd
            rw [List.nodup_cons] at hcwnd
            exact hcwnd.1 (hn0m ▸ List.mem_cons_self m ms)
        have hacc' : CoordChain (acc ++ buildPointsForWay nm cw (cw.nodes.drop 1)) := by
          rw [hblock, CoordChain, List.chain'_append]
          refine ⟨hacc, hbchain, ?_⟩
          intro x hx y hy
          rw [hlast, Option.mem_def, Option.some_inj] at hx
          subst hx
          exact hbound y hy
        exact ih _ hrest hacc'
      · rw [if_neg hb1]
        obtain ⟨aL, haL⟩ := nodesLast_exists cw hcwlen
        obtain ⟨cL, hcL⟩ := Option.isSome_iff_exists.mp
          (hcwres aL (List.mem_of_mem_getLast? haL))
        have hen : cw.nodes.getLast?.bind (fun n => nm.lookup n) = some cL := by
          rw [haL]
          simpa using hcL
        simp only [hen]
        by_cases hb2 : lastP.lat = cL.1 ∧ lastP.lon = cL.2
        · rw [if_pos hb2]
          have hrevnd : cw.nodes.reverse.Nodup := List.nodup_reverse.mpr hcwnd
          obtain ⟨r0, rtail, hrev⟩ : ∃ r0 rtail, cw.nodes.reverse = r0 :: rtail := by
            cases hr : cw.nodes.reverse with
            | nil =>
              have : cw.nodes = [] := by
                have := congrArg List.reverse hr
                simpa using this
              rw [this] at hcwlen
              exact absurd hcwlen (by norm_num)
            | cons a as => exact ⟨a, as, rfl⟩
          have hr0 : r0 = aL := by
            have h1 : cw.nodes.reverse.head? = some aL := by
              rw [List.head?_reverse]
              exact haL
            rw [hrev, List.head?_cons, Option.some_inj] at h1
            exact h1
          have hrevsub : ∀ n ∈ cw.nodes.reverse.drop 1, n ∈ cw.nodes := by
            intro n hn
            exact List.mem_reverse.mp (List.mem_of_mem_drop hn)
          have hblock : buildPointsForWay nm cw (cw.nodes.reverse.drop 1) =
              (cw.nodes.reverse.drop 1).map (pointOf nm cw) :=
            buildPoints_eq_map nm cw _ (fun n hn => hcwres n (hrevsub n hn))
          have hbchain : CoordChain ((cw.nodes.reverse.drop 1).map (pointOf nm cw)) :=
            coordChain_map_pointOf ways nm hinj cw _
              (hrevnd.sublist (List.drop_sublist 1 cw.nodes.reverse))
              (fun n hn => hcwall n (hrevsub n hn))
              (fun n hn => hcwres n (hrevsub n hn))
          have hbound : ∀ y ∈ ((cw.nodes.reverse.drop 1).map (pointOf nm cw)).head?,
              ¬ CoordEq lastP y := by
            intro y hy hco
            rw [List.head?_map] at hy
            rw [hrev, List.drop_one, List.tail_cons] at hy
            cases hrt : rtail with
            | nil => rw [hrt] at hy; exact Option.noConfusion hy
            | cons m ms =>
              rw [hrt] at hy
              simp only [List.head?_cons, Option.map_some', Option.mem_def,
                Option.some_inj] at hy
              have hmmem : m ∈ cw.nodes := by
                refine List.mem_reverse.mp ?_
                rw [hrev, hrt]
                exact List.mem_cons_of_mem r0 (List.mem_cons_self m ms)
              obtain ⟨cm, hcm⟩ := Option.isSome_iff_exists.mp (hcwres m hmmem)
              have h2 := pointOf_coords nm cw m cm hcm
              have hcc : cL = cm := by
                rcases hco with ⟨hla, hlo⟩
                rw [← hy] at hla hlo
                exact Prod.ext (by rw [← h2.1, ← hla, hb2.1])
                  (by rw [← h2.2, ← hlo, hb2.2])
              have haLm := hinj aL (hcwall aL (List.mem_of_mem_getLast? haL))
                m (hcwall m hmmem) (by rw [hcL, hcm, hcc])
              rw [hrev, hrt, List.nodup_cons] at hrevnd
              rw [hr0] at hrevnd
              exact hrevnd.1 (haLm ▸ List.mem_cons_self m ms)
          have hacc' : CoordChain
              (acc ++ buildPointsForWay nm cw (cw.nodes.reverse.drop 1)) := by
            rw [hblock, CoordChain, List.chain'_append]
            refine ⟨hacc, hbchain, ?_⟩
            intro x hx y hy
            rw [hlast, Option.mem_def, Option.some_inj] at hx
            subst hx
            exact hbound y hy
          exact ih _ hrest hacc'
        · rw [if_neg hb2]
          have hblock : buildPointsForWay nm cw cw.nodes =
              cw.nodes.map (pointOf nm cw) :=
            buildPoints_eq_map nm cw _ hcwres
          have hbchain : CoordChain (cw.nodes.map (pointOf nm cw)) :=
            coordChain_map_pointOf ways nm hinj cw _ hcwnd hcwall hcwres
          have hbound : ∀ y ∈ (cw.nodes.map (pointOf nm cw)).head?,
              ¬ CoordEq lastP y := by
            intro y hy hco
            rw [List.head?_map] at hy
            rw [hns] at hy
            simp only [List.head?_cons, Option.map_some', Option.mem_def,
              Option.some_inj] at hy
            have h1 := pointOf_coords nm cw n0 c0 hc0
            rcases hco with ⟨hla, hlo⟩
            rw [← hy] at hla hlo
            exact hb1 ⟨by rw [hla, h1.1], by rw [hlo, h1.2]⟩
          have hacc' : CoordChain (acc ++ buildPointsForWay nm cw cw.nodes) := by
            rw [hblock, CoordChain, List.chain'_append]
            refine ⟨hacc, hbchain, ?_⟩
            intro x hx y hy
            rw [hlast, Option.mem_def, Option.some_inj] at hx
            subst hx
            exact hbound y hy
          exact ih _ hrest hacc'

/-! #### Coordinate-distinctness is preserved by the post-processing stages -/

theorem coordChain_reverse (l : List OSMPoint) (h : CoordChain l) :
    CoordChain l.reverse := by
  rw [CoordChain, List.chain'_reverse]
  refine h.imp ?_
  intro a b hab hba
  have hba2 : b.lat = a.lat ∧ b.lon = a.lon := hba
  exact hab (show a.lat = b.lat ∧ a.lon = b.lon from ⟨hba2.1.symm, hba2.2.symm⟩)

/-- Direction normalization returns the path or its reversal. -/
theorem normalizeDirection_cases (ways : List Way) (chain : List ℕ)
    (fp : List OSMPoint) :
    normalizeDirection ways chain fp = fp ∨
      normalizeDirection ways chain fp = fp.reverse := by
  rw [normalizeDirection]
  split
  · exact Or.inl rfl
  split
  · exact Or.inl rfl
  split
  · dsimp only
    split
    · split
      · exact Or.inr rfl
      · exact Or.inl rfl
    · split
      · exact Or.inr rfl
      · exact Or.inl rfl
  · exact Or.inl rfl

/-- Carry-forward rewrites only the speed tag and way id: the coordinate
sequence is untouched. -/
theorem carryForwardGo_coords (pts : List OSMPoint) :
    ∀ prev : Option OSMPoint,
    (carryForwardGo prev pts).map (fun p => (p.lat, p.lon)) =
      pts.map (fun p => (p.lat, p.lon)) := by
  induction pts with
  | nil => intro prev; cases prev <;> rfl
  | cons p rest ih =>
    intro prev
    cases prev with
    | none =>
      rw [carryForwardGo, List.map_cons, List.map_cons, ih]
    | some q =>
      rw [carryForwardGo]
      simp only [List.map_cons, ih]
      by_cases hs : p.speed = none
      · rw [if_pos hs]
      · rw [if_neg hs]

/-- Two point lists with the same coordinate sequence are
consecutive-distinct together. -/
theorem coordChain_of_map_eq (l1 l2 : List OSMPoint)
    (h : l1.map (fun p => (p.lat, p.lon)) = l2.map (fun p => (p.lat, p.lon)))
    (hc : CoordChain l1) : CoordChain l2 := by
  have h1 : List.Chain' (fun c d : ℚ × ℚ => ¬(c.1 = d.1 ∧ c.2 = d.2))
      (l1.map (fun p => (p.lat, p.lon))) := by
    rw [List.chain'_map]
    exact hc
  rw [h, List.chain'_map] at h1
  exact h1

/-! #### Every id the chain builder emits names a known way -/

theorem extendForward_subset (ways : List Way) :
    ∀ (fuel : ℕ) (used chain : List ℕ) (tip : Option ℕ),
    (∀ x ∈ chain, ∃ w ∈ ways, w.id = x) →
    ∀ x ∈ (extendForward ways fuel used chain tip).2.1, ∃ w ∈ ways, w.id = x := by
  intro fuel
  induction fuel with
  | zero => intro used chain tip h; exact h
  | succ f ih =>
    intro used chain tip h
    cases hsc : stepConnections ways used tip with
    | nil =>
      rw [extendForward, hsc]
      exact h
    | cons nid nids =>
      have hnid : ∃ w ∈ ways, w.id = nid := by
        have hmem : nid ∈ stepConnections ways used tip := by
          rw [hsc]; exact List.mem_cons_self nid nids
        cases tip with
        | none => rw [stepConnections] at hmem; exact absurd hmem (by simp)
        | some t =>
          rw [stepConnections] at hmem
          obtain ⟨w, hw, hwid, _⟩ :=
            (nodeWays_mem_iff ways t nid).mp (List.mem_of_mem_filter hmem)
          exact ⟨w, hw, hwid⟩
      have hext : ∀ x ∈ chain ++ [nid], ∃ w ∈ ways, w.id = x := by
        intro x hx
        rcases List.mem_append.mp hx with h1 | h1
        · exact h x h1
        · rw [List.mem_singleton] at h1
          exact h1 ▸ hnid
      cases hfw : findWay ways nid with
      | none =>
        rw [extendForward, hsc]
        simp only [hfw]
        exact h
      | some nw =>
        rw [extendForward, hsc]
        simp only [hfw]
        split
        · exact ih _ _ _ hext
        · exact ih _ _ _ hext

theorem extendBackward_subset (ways : List Way) :
    ∀ (fuel : ℕ) (used chain : List ℕ) (tip : Option ℕ),
    (∀ x ∈ chain, ∃ w ∈ ways, w.id = x) →
    ∀ x ∈ (extendBackward ways fuel used chain tip).2.1, ∃ w ∈ ways, w.id = x := by
  intro fuel
  induction fuel with
  | zero => intro used chain tip h; exact h
  | succ f ih =>
    intro used chain tip h
    cases hsc : stepConnections ways used tip with
    | nil =>
      rw [extendBackward, hsc]
      exact h
    | cons nid nids =>
      have hnid : ∃ w ∈ ways, w.id = nid := by
        have hmem : nid ∈ stepConnections ways used tip := by
          rw [hsc]; exact List.mem_cons_self nid nids
        cases tip with
        | none => rw [stepConnections] at hmem; exact absurd hmem (by simp)
        | some t =>
          rw [stepConnections] at hmem
          obtain ⟨w, hw, hwid, _⟩ :=
            (nodeWays_mem_iff ways t nid).mp (List.mem_of_mem_filter hmem)
          exact ⟨w, hw, hwid⟩
      have hext : ∀ x ∈ nid :: chain, ∃ w ∈ ways, w.id = x := by
        intro x hx
        rcases List.mem_cons.mp hx with h1 | h1
        · exact h1 ▸ hnid
        · exact h x h1
      cases hfw : findWay ways nid with
      | none =>
        rw [extendBackward, hsc]
        simp only [hfw]
        exact h
      | some nw =>
        rw [extendBackward, hsc]
        simp only [hfw]
        split
        · exact ih _ _ _ hext
        · exact ih _ _ _ hext

theorem foldl_buildChainsStep_subset (ways : List Way) :
    ∀ (l : List Way) (st : List (List ℕ) × List ℕ),
    (∀ w ∈ l, w ∈ ways) →
    (∀ c ∈ st.1, ∀ x ∈ c, ∃ w ∈ ways, w.id = x) →
    ∀ c ∈ (l.foldl (buildChainsStep ways) st).1, ∀ x ∈ c,
      ∃ w ∈ ways, w.id = x := by
  intro l
  induction l with
  | nil => intro st _ h; exact h
  | cons w ls ih =>
    intro st hmem h
    rw [List.foldl_cons]
    refine ih _ (fun v hv => hmem v (List.mem_cons_of_mem w hv)) ?_
    rw [buildChainsStep]
    split
    · exact h
    · intro c hc
      dsimp only at hc
      rcases List.mem_append.mp hc with h1 | h1
      · exact h c h1
      · rw [List.mem_singleton] at h1
        subst h1
        refine extendBackward_subset ways _ _ _ _ ?_
        refine extendForward_subset ways _ _ _ _ ?_
        intro x hx
        rw [List.mem_singleton] at hx
        exact ⟨w, hmem w (List.mem_cons_self w ls), hx.symm⟩

theorem buildChains_subset (ways : List Way) :
    ∀ c ∈ buildChains ways, ∀ x ∈ c, ∃ w ∈ ways, w.id = x := by
  rw [buildChains]
  exact foldl_buildChainsStep_subset ways ways ([], [])
    (fun _ h => h) (by simp)

theorem flattenChain_coordChain (ways : List Way) (nm : NodeMap)
    (hres : NodesResolve ways nm) (hinj : CoordInj ways nm)
    (hw : ∀ w ∈ ways, 2 ≤ w.nodes.length ∧ w.nodes.Nodup)
    (chain : List ℕ) (hchain : ∀ x ∈ chain, ∃ w ∈ ways, w.id = x) :
    ∃ out, flattenChain ways nm chain = some out ∧ CoordChain out := by
  cases chain with
  | nil => exact ⟨[], rfl, List.chain'_nil⟩
  | cons firstId rest =>
    obtain ⟨w1, hw1mem, hw1id⟩ := hchain firstId (List.mem_cons_self firstId rest)
    have hfind : ∃ cw, findWay ways firstId = some cw := by
      cases hfw : findWay ways firstId with
      | some cw => exact ⟨cw, rfl⟩
      | none =>
        rw [findWay, List.find?_eq_none] at hfw
        exact absurd (by simp [hw1id]) (hfw w1 hw1mem)
    obtain ⟨cw, hcw⟩ := hfind
    have hcwmem : cw ∈ ways := List.mem_of_find?_eq_some hcw
    have hcwres : ∀ n ∈ cw.nodes, (nm.lookup n).isSome = true :=
      fun n hn => hres cw hcwmem n hn
    have hacc : CoordChain (buildPointsForWay nm cw cw.nodes) := by
      rw [buildPoints_eq_map nm cw _ hcwres]
      exact coordChain_map_pointOf ways nm hinj cw _ (hw cw hcwmem).2
        (fun n hn => List.mem_flatMap.mpr ⟨cw, hcwmem, hn⟩) hcwres
    rw [flattenChain]
    simp only [hcw]
    exact flattenGo_coordChain ways nm hres hinj hw rest _
      (fun x hx => hchain x (List.mem_cons_of_mem firstId hx)) hacc

/-- Whatever the selected chain is, the assembled path exists and never
repeats a coordinate on consecutive points. -/
theorem assemblePath_coordChain (ways : List Way) (nm : NodeMap)
    (hres : NodesResolve ways nm) (hinj : CoordInj ways nm)
    (hw : ∀ w ∈ ways, 2 ≤ w.nodes.length ∧ w.nodes.Nodup) :
    ∃ out, assemblePath ways nm = some out ∧ CoordChain out := by
  rw [assemblePath]
  split
  · exact ⟨[], rfl, List.chain'_nil⟩
  · cases hhead : (sortChainsDesc (buildChains ways)).head? with
    | none => exact ⟨[], by simp [hhead], List.chain'_nil⟩
    | some longest =>
      have hmem : longest ∈ buildChains ways := by
        apply firstArgmax_mem
        rw [← sortChainsDesc_head_eq_firstArgmax]
        exact hhead
      have hchain : ∀ x ∈ longest, ∃ w ∈ ways, w.id = x :=
        buildChains_subset ways longest hmem
      obtain ⟨fp, hfp, hcc⟩ := flattenChain_coordChain ways nm hres hinj hw
        longest hchain
      refine ⟨carryForward (normalizeDirection ways longest fp), ?_, ?_⟩
      · simp only [hhead]
        rw [hfp, Option.map_some']
      · have h1 : CoordChain (normalizeDirection ways longest fp) := by
          rcases normalizeDirection_cases ways longest fp with h | h
          · rw [h]; exact hcc
          · rw [h]; exact coordChain_reverse fp hcc
        exact coordChain_of_map_eq _ _
          (carryForwardGo_coords (normalizeDirection ways longest fp) none).symm h1

theorem carryForwardGo_length (pts : List OSMPoint) (prev : Option OSMPoint) :
    (carryForwardGo prev pts).length = pts.length := by
  have h := congrArg List.length (carryForwardGo_coords pts prev)
  simpa using h

/-! #### Exact output on an aligned simple chain -/

theorem assemblePath_aligned_length (ways : List Way) (nm : NodeMap)
    (W : List Way)
    (hWperm : List.Perm W ways)
    (hids : (ways.map Way.id).Nodup)
    (hmin : ∀ w ∈ W, 2 ≤ w.nodes.length)
    (hlink : List.Chain' (fun u v => u.nodes.getLast? = v.nodes.head?) W)
    (hcut : ∀ j, j < W.length → 0 < j →
      ∀ n, (W.take j).getLast?.bind (fun w => w.nodes.getLast?) = some n →
        (endpointList ways).count n = 2)
    (hfirst : ∀ n, W.head?.bind (fun w => w.nodes.head?) = some n →
        (endpointList ways).count n = 1)
    (hlast : ∀ n, W.getLast?.bind (fun w => w.nodes.getLast?) = some n →
        (endpointList ways).count n = 1)
    (hres : NodesResolve ways nm)
    (hnm : nm ≠ []) (hne : ways ≠ []) :
    ∃ out, assemblePath ways nm = some out ∧
      out.length + ways.length = (ways.map (fun w => w.nodes.length)).sum + 1 := by
  have hWne : W ≠ [] := by
    intro h
    rw [h] at hWperm
    have hl := hWperm.length_eq
    cases hways : ways with
    | nil => exact hne hways
    | cons a l2 => rw [hways] at hl; simp at hl
  have hchains := buildChains_aligned ways W hWperm hids hmin hlink hcut
    hfirst hlast hne
  have hflat := flattenChain_aligned ways nm W hids
    (fun w hw => hWperm.subset hw) hmin hres hlink
  have hnmF : (nm.isEmpty || ways.isEmpty) = false := by
    cases nm with
    | nil => exact absurd rfl hnm
    | cons a l =>
      cases ways with
      | nil => exact absurd rfl hne
      | cons w ws => rfl
  refine ⟨carryForward (normalizeDirection ways (W.map Way.id) (flatPtsW nm W)),
    ?_, ?_⟩
  · rw [assemblePath]
    simp only [hnmF, Bool.false_eq_true, if_false]
    rw [hchains]
    have hsort : (sortChainsDesc [W.map Way.id]).head? = some (W.map Way.id) := rfl
    simp only [hsort]
    rw [hflat, Option.map_some']
  · have hcl : (carryForward
        (normalizeDirection ways (W.map Way.id) (flatPtsW nm W))).length
        = (flatPtsW nm W).length := by
      rw [carryForward, carryForwardGo_length]
      rcases normalizeDirection_cases ways (W.map Way.id) (flatPtsW nm W) with h | h
      · rw [h]
      · rw [h, List.length_reverse]
    rw [hcl]
    have hfl := flatPtsW_length nm W (fun w hw => hres w (hWperm.subset hw))
      (fun w hw => le_trans (by norm_num) (hmin w hw)) hWne
    have hlW : W.length = ways.length := hWperm.length_eq
    have hsum : (W.map (fun w => w.nodes.length)).sum =
        (ways.map (fun w => w.nodes.length)).sum :=
      (hWperm.map (fun w => w.nodes.length)).sum_eq
    omega

/-! #### Reading an all-forward arrangement as its way list -/

theorem list_false_flags_eq (l : List (Way × Bool))
    (h : ∀ wb ∈ l, wb.2 = false) :
    l = (l.map Prod.fst).map (fun w => (w, false)) := by
  induction l with
  | nil => rfl
  | cons wb rest ih =>
    rw [List.map_cons, List.map_cons]
    have h2 : wb = (wb.1, false) :=
      Prod.ext rfl (h wb (List.mem_cons_self wb rest))
    rw [← ih (fun x hx => h x (List.mem_cons_of_mem wb hx)), ← h2]

theorem arrFirstNode_false (l : List (Way × Bool))
    (h : ∀ wb ∈ l, wb.2 = false) :
    arrFirstNode l = (l.map Prod.fst).head?.bind (fun w => w.nodes.head?) := by
  cases l with
  | nil => rfl
  | cons wb rest =>
    have h2 : wb.2 = false := h wb (List.mem_cons_self wb rest)
    simp [arrFirstNode, orientNodes, h2]

theorem arrLastNode_false (l : List (Way × Bool))
    (h : ∀ wb ∈ l, wb.2 = false) :
    arrLastNode l = (l.map Prod.fst).getLast?.bind (fun w => w.nodes.getLast?) := by
  rw [arrLastNode, List.getLast?_map]
  cases hl : l.getLast? with
  | none => rfl
  | some wb =>
    have h2 : wb.2 = false := h wb (List.mem_of_mem_getLast? hl)
    simp [orientNodes, h2]

theorem cutNode_false (l : List (Way × Bool)) (j : ℕ)
    (h : ∀ wb ∈ l, wb.2 = false) :
    cutNode l j =
      ((l.map Prod.fst).take j).getLast?.bind (fun w => w.nodes.getLast?) := by
  rw [cutNode, ← List.map_take, List.getLast?_map]
  cases hl : (l.take j).getLast? with
  | none => rfl
  | some wb =>
    have h2 : wb.2 = false :=
      h wb (List.mem_of_mem_take (List.mem_of_mem_getLast? hl))
    simp [orientNodes, h2]

/-- **C4** (amended). For every fragment set forming a single simple chain
(with resolvable, coordinate-distinct nodes), the assembler succeeds and its
output contains no duplicate consecutive coordinates; and whenever the chain
can be arranged without reversing any fragment's stored node order, the
output length equals the sum of the fragments' node counts minus
(count − 1) shared endpoints.  The original claim's length formula does not
hold for every simple chain: see the counterexample, where a fragment stored
in reverse orientation triggers the flattener's discontinuity branch. -/
theorem c4_single_chain_flatten (ways : List Way) (nm : NodeMap)
    (arr : List (Way × Bool)) (hsc : SimpleChain ways arr)
    (hres : NodesResolve ways nm) (hinj : CoordInj ways nm) (hnm : nm ≠ []) :
    ∃ out, assemblePath ways nm = some out ∧ CoordChain out ∧
      ((∀ wb ∈ arr, wb.2 = false) →
        out.length + ways.length =
          (ways.map (fun w => w.nodes.length)).sum + 1) := by
  obtain ⟨hane, hperm, hids, hfrag, hlink, hmerge, hfirstC, hlastC, hcutC⟩ := hsc
  have hwprop : ∀ w ∈ ways, 2 ≤ w.nodes.length ∧ w.nodes.Nodup := by
    intro w hw2
    obtain ⟨wb, hwb, hwbe⟩ := List.mem_map.mp (hperm.mem_iff.mpr hw2)
    exact hwbe ▸ hfrag wb hwb
  obtain ⟨out, hout, hcc⟩ := assemblePath_coordChain ways nm hres hinj hwprop
  refine ⟨out, hout, hcc, ?_⟩
  intro hflags
  have harrEq := list_false_flags_eq arr hflags
  have hlinkW : List.Chain' (fun u v => u.nodes.getLast? = v.nodes.head?)
      (arr.map Prod.fst) := by
    have h0 := hlink
    rw [harrEq, List.chain'_map] at h0
    refine h0.imp ?_
    intro a b hab
    simpa [orientNodes] using hab
  have hminW : ∀ w ∈ arr.map Prod.fst, 2 ≤ w.nodes.length :=
    fun w hw => (hwprop w (hperm.subset hw)).1
  have hfirstW : ∀ n,
      (arr.map Prod.fst).head?.bind (fun w => w.nodes.head?) = some n →
      (endpointList ways).count n = 1 := by
    intro n hn
    apply hfirstC
    rw [arrFirstNode_false arr hflags, hn]
    simp
  have hlastW : ∀ n,
      (arr.map Prod.fst).getLast?.bind (fun w => w.nodes.getLast?) = some n →
      (endpointList ways).count n = 1 := by
    intro n hn
    apply hlastC
    rw [arrLastNode_false arr hflags, hn]
    simp
  have hcutW : ∀ j, j < (arr.map Prod.fst).length → 0 < j →
      ∀ n, ((arr.map Prod.fst).take j).getLast?.bind
        (fun w => w.nodes.getLast?) = some n →
      (endpointList ways).count n = 2 := by
    intro j hj hj0 n hn
    refine hcutC j (List.mem_range.mpr ?_) hj0 n ?_
    · rw [List.length_map] at hj
      exact hj
    · rw [cutNode_false arr j hflags, hn]
      simp
  have hne : ways ≠ [] := by
    intro h
    rw [h] at hperm
    have hl := hperm.length_eq
    rw [List.length_map] at hl
    cases harr : arr with
    | nil => exact hane harr
    | cons a l2 => rw [harr] at hl; simp at hl
  obtain ⟨out2, hout2, hlen2⟩ := assemblePath_aligned_length ways nm
    (arr.map Prod.fst) hperm hids hminW hlinkW hcutW hfirstW hlastW hres hnm hne
  rw [hout] at hout2
  rw [Option.some_inj.mp hout2]
  exact hlen2

/-! #### Concrete instances for C4 -/

/-- Counterexample fragment with id 2, nodes 2→3. -/
def cexWay2 : Way := ⟨2, [2, 3], none, "no"⟩

/-- Counterexample fragment with id 5, nodes 2→1 (stored against the chain
direction). -/
def cexWay5 : Way := ⟨5, [2, 1], none, "no"⟩

/-- The counterexample fragment set. -/
def cexWays : List Way := [cexWay2, cexWay5]

/-- The counterexample node store: three collinear nodes. -/
def cexNm : NodeMap := [(1, (2, 0)), (2, (1, 0)), (3, (0, 0))]

/-- The simple-chain arrangement 1—2—3: way 5 reversed, then way 2. -/
def cexArr : List (Way × Bool) := [(cexWay5, true), (cexWay2, false)]

/-- **C4 counterexample.** The two fragments form a single simple chain with
resolvable, coordinate-distinct nodes, yet the assembled path has 4 points
while the claimed formula (sum of node counts minus (count − 1)) gives 3:
the greedy builder keeps way 5's stored orientation, so the flattener's
coordinate match fails and the discontinuity branch re-emits the junction
node. -/
theorem c4_counterexample :
    SimpleChain cexWays cexArr ∧ NodesResolve cexWays cexNm ∧
    CoordInj cexWays cexNm ∧ cexNm ≠ [] ∧
    (assemblePath cexWays cexNm).map List.length = some 4 ∧
    (cexWays.map (fun w => w.nodes.length)).sum - (cexWays.length - 1) = 3 := by
  refine ⟨⟨by decide, List.Perm.swap cexWay2 cexWay5 [], by decide, by decide,
    List.Chain.cons (by decide) List.Chain.nil, by decide, by decide,
    by decide, by decide⟩, by unfold NodesResolve; decide,
    by unfold CoordInj allNodeIds; decide, by decide, ?_, by decide⟩
  have h1 : (sortChainsDesc (buildChains cexWays)).head? = some [5, 2] := by decide
  have h2 : flattenChain cexWays cexNm [5, 2] =
      some [⟨1, 0, none, some 5⟩, ⟨2, 0, none, some 5⟩,
            ⟨1, 0, none, some 2⟩, ⟨0, 0, none, some 2⟩] := by decide
  have h3 : assemblePath cexWays cexNm =
      some (carryForward (normalizeDirection cexWays [5, 2]
        [⟨1, 0, none, some 5⟩, ⟨2, 0, none, some 5⟩,
         ⟨1, 0, none, some 2⟩, ⟨0, 0, none, some 2⟩])) := by
    rw [assemblePath]
    rw [if_neg (by decide)]
    simp only [h1]
    rw [h2, Option.map_some']
  rw [h3, Option.map_some', Option.some_inj, carryForward, carryForwardGo_length]
  rcases normalizeDirection_cases cexWays [5, 2]
      [⟨1, 0, none, some 5⟩, ⟨2, 0, none, some 5⟩,
       ⟨1, 0, none, some 2⟩, ⟨0, 0, none, some 2⟩] with h | h
  · rw [h]; rfl
  · rw [h, List.length_reverse]; rfl

/-- Witness fragment 1→2 for the amended claim. -/
def wWayA : Way := ⟨1, [1, 2], none, "no"⟩

/-- Witness fragment 2→3 for the amended claim. -/
def wWayB : Way := ⟨2, [2, 3], none, "no"⟩

/-- Witness fragment set: an aligned two-way chain. -/
def wWays : List Way := [wWayA, wWayB]

/-- Witness node store. -/
def wNm : NodeMap := [(1, (0, 0)), (2, (1, 0)), (3, (2, 0))]

/-- Witness arrangement: both fragments kept in stored order. -/
def wArr : List (Way × Bool) := [(wWayA, false), (wWayB, false)]

/-- C4 witness: the amended claim applied to a concrete aligned two-fragment
chain. -/
theorem c4_single_chain_flatten_witness :
    ∃ out, assemblePath wWays wNm = some out ∧ CoordChain out ∧
      ((∀ wb ∈ wArr, wb.2 = false) →
        out.length + wWays.length =
          (wWays.map (fun w => w.nodes.length)).sum + 1) :=
  c4_single_chain_flatten wWays wNm wArr
    ⟨by decide, List.Perm.refl wWays, by decide, by decide,
      List.Chain.cons (by decide) List.Chain.nil, by decide, by decide,
      by decide, by decide⟩
    (by unfold NodesResolve; decide) (by unfold CoordInj allNodeIds; decide)
    (by decide)

end OSMAudit
